import Mathlib

/-!
Verification of the LUPA lumped-parameter network simulator against its
natural-language specification.

The development shallowly embeds the Python sources in Lean 4:

* `src/lupa/core/timeintegration.py` — the BDF1/BDF2/BDF3 left- and
  right-hand-side builders (`build_LHS_BDF*`, `build_RHS_BDF*`);
* `src/lupa/core/circuitsolver.py` — the `CircuitSolver` class: system
  assembly (`build_M0M1`, `build_source`), the solvability check
  (`check_no_solution`), the diode state machine (`build_diode`,
  `set_diode`, `update_diode`, `recompute_diodes`), source-node
  elimination (`delete_node_sources`) and the time-stepping loop
  (`solve`);
* `src/utils/calculator.py` — the expression scanner, parser and
  evaluator (`Scanner`, `Parser`, `Calculator.calculate`).

Modelling conventions:

* Python machine floats are modelled as exact rationals `ℚ`.  All claims
  proved below only exercise values that IEEE-754 doubles represent
  exactly, so the rational model agrees with the float semantics there.
* NumPy vectors and square matrices are total functions `ℕ → ℚ` and
  `ℕ → ℕ → ℚ` together with an ambient size `n`; Python's negative
  indexing `a[-k]` is modelled by reducing an `ℤ` index modulo `n`
  (`Int.emod` agrees with Python `%` for positive modulus).  This agrees
  with the source for every index in `[-n, n)`; out-of-range indices —
  which raise `IndexError` in Python — are kept out of reach by
  hypotheses of the theorems concerned.
* `np.linalg.solve` is LAPACK code external to the repository; it is
  modelled as an explicit oracle parameter returning `Option` (`none`
  models `numpy.linalg.LinAlgError`).  Concrete runs instantiate the
  oracle with the exact Gaussian elimination `gaussSolve` defined below,
  which fails exactly on singular systems.
* Python dictionaries keyed by matrix row are modelled as association
  lists in insertion order; the source only ever inserts fresh
  (strictly increasing) row keys.
-/

deriving instance DecidableEq for Except

namespace LUPA

/-! ### Time integration (src/lupa/core/timeintegration.py) -/

/-- The `TimeIntegration` enum of `timeintegration.py`. -/
inductive TimeIntegration where
  | BDF
  | BDF2
  | BDF3
  deriving DecidableEq, Repr

/-- Matrix–vector product `M @ v` for an `n × n` NumPy array modelled as a
total function. -/
def matVec (n : ℕ) (M : ℕ → ℕ → ℚ) (v : ℕ → ℚ) : ℕ → ℚ :=
  fun i => ∑ j ∈ Finset.range n, M i j * v j

/-- `build_LHS_BDF(D, K, dt) = K + D / dt` (entrywise). -/
def build_LHS_BDF (D K : ℕ → ℕ → ℚ) (dt : ℚ) : ℕ → ℕ → ℚ :=
  fun i j => K i j + D i j / dt

/-- `build_LHS_BDF2(D, K, dt) = K + 3 / (2 * dt) * D` (entrywise). -/
def build_LHS_BDF2 (D K : ℕ → ℕ → ℚ) (dt : ℚ) : ℕ → ℕ → ℚ :=
  fun i j => K i j + 3 / (2 * dt) * D i j

/-- `build_LHS_BDF3(D, K, dt) = K + 11 / (6 * dt) * D` (entrywise). -/
def build_LHS_BDF3 (D K : ℕ → ℕ → ℚ) (dt : ℚ) : ℕ → ℕ → ℚ :=
  fun i j => K i j + 11 / (6 * dt) * D i j

/-- `build_RHS_BDF(D, F, dt, step, x) = F + D @ (x[:, step] / dt)`.
The solution history `x` is passed as a column accessor `ℤ → ℕ → ℚ` so
that Python's negative column indices can be modelled by the caller. -/
def build_RHS_BDF (n : ℕ) (D : ℕ → ℕ → ℚ) (F : ℕ → ℚ) (dt : ℚ)
    (step : ℤ) (x : ℤ → ℕ → ℚ) : ℕ → ℚ :=
  fun i => F i + matVec n D (fun k => x step k / dt) i

/-- `build_RHS_BDF2(D, F, dt, step, x) =
F + D @ ((4 * x[:, step] - x[:, step - 1]) / (2 * dt))`. -/
def build_RHS_BDF2 (n : ℕ) (D : ℕ → ℕ → ℚ) (F : ℕ → ℚ) (dt : ℚ)
    (step : ℤ) (x : ℤ → ℕ → ℚ) : ℕ → ℚ :=
  fun i => F i + matVec n D (fun k => (4 * x step k - x (step - 1) k) / (2 * dt)) i

/-- `build_RHS_BDF3(D, F, dt, step, x) =
F + D @ ((18 * x[:, step] - 9 * x[:, step - 1] + 2 * x[:, step - 2]) / (6 * dt))`. -/
def build_RHS_BDF3 (n : ℕ) (D : ℕ → ℕ → ℚ) (F : ℕ → ℚ) (dt : ℚ)
    (step : ℤ) (x : ℤ → ℕ → ℚ) : ℕ → ℚ :=
  fun i =>
    F i +
      matVec n D
        (fun k => (18 * x step k - 9 * x (step - 1) k + 2 * x (step - 2) k) / (6 * dt)) i

/-- Spec formula for the BDF2 left-hand side: `LHS = M0 + 1.5 · M1 / dt`. -/
def spec_LHS_BDF2 (M1 M0 : ℕ → ℕ → ℚ) (dt : ℚ) : ℕ → ℕ → ℚ :=
  fun i j => M0 i j + 3 / 2 * M1 i j / dt

/-- Spec formula for the BDF3 left-hand side: `LHS = M0 + (11/6) · M1 / dt`. -/
def spec_LHS_BDF3 (M1 M0 : ℕ → ℕ → ℚ) (dt : ℚ) : ℕ → ℕ → ℚ :=
  fun i j => M0 i j + 11 / 6 * M1 i j / dt

/-- Spec formula for the BDF2 right-hand side:
`RHS = S + M1 · (4 · x[:, step] − x[:, step−1]) / (2 · dt)`. -/
def spec_RHS_BDF2 (n : ℕ) (M1 : ℕ → ℕ → ℚ) (S : ℕ → ℚ) (dt : ℚ)
    (step : ℤ) (x : ℤ → ℕ → ℚ) : ℕ → ℚ :=
  fun i => S i + matVec n M1 (fun k => 4 * x step k - x (step - 1) k) i / (2 * dt)

/-- Spec formula for the BDF3 right-hand side:
`RHS = S + M1 · (18 · x[:, step] − 9 · x[:, step−1] + 2 · x[:, step−2]) / (6 · dt)`. -/
def spec_RHS_BDF3 (n : ℕ) (M1 : ℕ → ℕ → ℚ) (S : ℕ → ℚ) (dt : ℚ)
    (step : ℤ) (x : ℤ → ℕ → ℚ) : ℕ → ℚ :=
  fun i =>
    S i +
      matVec n M1 (fun k => 18 * x step k - 9 * x (step - 1) k + 2 * x (step - 2) k) i /
        (6 * dt)

/-- C1: for every square matrix pair `(M1, M0)`, source vector `S`, timestep
`dt > 0`, step index and solution history `x`, the BDF2 builders return
`LHS = M0 + 1.5·M1/dt` and `RHS = S + M1·(4·x[:,step] − x[:,step−1])/(2·dt)`,
and the BDF3 builders return `LHS = M0 + (11/6)·M1/dt` and
`RHS = S + M1·(18·x[:,step] − 9·x[:,step−1] + 2·x[:,step−2])/(6·dt)`.
The first argument of each builder is `M1` (damping) and the second `M0`
(stiffness) resp. `S`, exactly as `CircuitSolver.build_LHS`/`build_RHS`
pass them. -/
theorem bdf_builders_match_spec (n : ℕ) (M1 M0 : ℕ → ℕ → ℚ) (S : ℕ → ℚ)
    (dt : ℚ) (step : ℤ) (x : ℤ → ℕ → ℚ) (hdt : 0 < dt) :
    build_LHS_BDF2 M1 M0 dt = spec_LHS_BDF2 M1 M0 dt ∧
      build_RHS_BDF2 n M1 S dt step x = spec_RHS_BDF2 n M1 S dt step x ∧
      build_LHS_BDF3 M1 M0 dt = spec_LHS_BDF3 M1 M0 dt ∧
      build_RHS_BDF3 n M1 S dt step x = spec_RHS_BDF3 n M1 S dt step x := by
  have hdt' : dt ≠ 0 := ne_of_gt hdt
  refine ⟨?_, ?_, ?_, ?_⟩
  · funext i j
    simp only [build_LHS_BDF2, spec_LHS_BDF2]
    field_simp
  · funext i
    simp only [build_RHS_BDF2, spec_RHS_BDF2, matVec, Finset.sum_div]
    congr 1
    refine Finset.sum_congr rfl fun j _ => ?_
    field_simp
  · funext i j
    simp only [build_LHS_BDF3, spec_LHS_BDF3]
    field_simp
  · funext i
    simp only [build_RHS_BDF3, spec_RHS_BDF3, matVec, Finset.sum_div]
    congr 1
    refine Finset.sum_congr rfl fun j _ => ?_
    field_simp

/-- Witness for `bdf_builders_match_spec` at a concrete instance
(`n = 1`, constant matrices, `dt = 1`). -/
theorem bdf_builders_match_spec_witness :
    (0 : ℚ) < 1 ∧
      build_LHS_BDF2 (fun _ _ => 2) (fun _ _ => 5) 1 =
        spec_LHS_BDF2 (fun _ _ => 2) (fun _ _ => 5) 1 := by
  refine ⟨by norm_num, ?_⟩
  exact (bdf_builders_match_spec 1 (fun _ _ => 2) (fun _ _ => 5) (fun _ => 3) 1 0
    (fun _ _ => 7) (by norm_num)).1

/-! ### Circuit data model

The element classes live in `src/lupa/elements/`; graph edges and nodes
in `src/lupa/core/`.  The solver dispatches on the element's Python
class (`type(e) is Resistor`, …, `isinstance(e, Ground)` — `PSource`
derives from `Ground` and `QSource` from `PSource`), which we model as
an element-kind tag.  An element's `value` is a float for inactive
elements; for active elements `calc(value)` produces a function of time,
which we carry directly as the field `vfn` (and `calc("-(" + value + ")")`
is its pointwise negation). -/

/-- Element kind tag standing for the Python class of the element. -/
inductive ElemKind where
  | resistor
  | capacitor
  | inductor
  | diode
  | ground
  | psource
  | qsource
  | wire
  deriving DecidableEq, Repr

/-- Kinds caught by `isinstance(elem, Ground)` (Ground and its
subclasses `PSource`, `QSource`). -/
def ElemKind.groundLike : ElemKind → Bool
  | .ground => true
  | .psource => true
  | .qsource => true
  | _ => false

/-- A circuit element as the solver sees it: its class tag, its numeric
value (`get_value()` for inactive elements), its `active` flag, and the
time function `calc(value)` used when active. -/
structure Element where
  kind : ElemKind
  value : ℚ
  active : Bool
  vfn : ℚ → ℚ

/-- A graph edge (`src/lupa/core/graphedge.py` is absent from `src/`;
the record is reconstructed from its uses and from the spec, §3: "A pair
`(start, end)` of graph-node indices plus the underlying non-wire
element").  `endn` stands for the Python attribute `end` (a Lean
keyword).  Endpoints are integers because source-node elimination
rewrites them to `-1`. -/
structure GraphEdge where
  start : ℤ
  endn : ℤ
  elem : Element

/-- The `GraphNodeType` enum of `graphnode.py`. -/
inductive GraphNodeType where
  | DIPOLE
  | SOURCE
  deriving DecidableEq, Repr

/-- A graph node (`graphnode.py`); the incident-edge list is not needed
by the solver-side functions modelled here. -/
structure GraphNode where
  type : GraphNodeType
  probed : Bool
  probe_name : String

instance : Inhabited GraphNode := ⟨⟨GraphNodeType.DIPOLE, false, ""⟩⟩

/-! ### Solvability check (CircuitSolver.check_no_solution) -/

/-- Errors of `src/lupa/exceptions/circuitsolverexceptions.py`. -/
inductive SolverErr where
  | overconstrained (eqs unkns : ℕ)
  | underconstrained (eqs unkns : ℕ)
  deriving DecidableEq, Repr

/-- The flattened endpoint array `np.array(startends).flat`. -/
def flatEndpoints (startends : List (ℤ × ℤ)) : List ℤ :=
  startends.flatMap fun se => [se.1, se.2]

/-- `np.unique` of a list of integers: the distinct values in ascending
order.  (Modelled with `List.insertionSort`, which is structurally
recursive, so that concrete instances evaluate in the kernel.) -/
def npUnique (arr : List ℤ) : List ℤ :=
  List.insertionSort (· ≤ ·) arr.dedup

/-- The branching-equation count of `check_no_solution` (and of the
branching loop of `build_M0M1`): one equation per distinct endpoint
value that is not `-1` and occurs more than once. -/
def branchingNodes (startends : List (ℤ × ℤ)) : List ℤ :=
  (npUnique (flatEndpoints startends)).filter fun k =>
    decide (1 < (flatEndpoints startends).count k) && decide (k ≠ -1)

/-- `CircuitSolver.check_no_solution`: counts one equation per edge of
each path plus one per branching node, and raises when the count differs
from `nbP + nbQ`. -/
def check_no_solution (nbP nbQ : ℕ) (paths : List (List GraphEdge))
    (startends : List (ℤ × ℤ)) : Except SolverErr Unit :=
  let c := (paths.map List.length).sum + (branchingNodes startends).length
  if c > nbP + nbQ then .error (.overconstrained c (nbP + nbQ))
  else if c < nbP + nbQ then .error (.underconstrained c (nbP + nbQ))
  else .ok ()

/-- The claim's row count, stated independently of the implementation:
sum of path lengths plus the number of distinct endpoint indices
(excluding `-1`) occurring more than once, as a `Finset` cardinality. -/
def claimRowCount (paths : List (List GraphEdge)) (startends : List (ℤ × ℤ)) : ℕ :=
  (paths.map List.length).sum +
    ((flatEndpoints startends).toFinset.filter fun k =>
      k ≠ -1 ∧ 1 < (flatEndpoints startends).count k).card

theorem branchingNodes_nodup (startends : List (ℤ × ℤ)) :
    (branchingNodes startends).Nodup := by
  refine List.Nodup.filter _ ?_
  exact ((List.perm_insertionSort _ _).nodup_iff).2 (List.nodup_dedup _)

theorem branchingNodes_length (startends : List (ℤ × ℤ)) :
    (branchingNodes startends).length =
      ((flatEndpoints startends).toFinset.filter fun k =>
        k ≠ -1 ∧ 1 < (flatEndpoints startends).count k).card := by
  classical
  rw [← List.toFinset_card_of_nodup (branchingNodes_nodup startends)]
  congr 1
  ext k
  simp only [branchingNodes, List.toFinset_filter, Finset.mem_filter, List.mem_toFinset,
    npUnique, Bool.and_eq_true, decide_eq_true_eq]
  constructor
  · rintro ⟨hk, h1, h2⟩
    have : k ∈ (flatEndpoints startends).dedup := (List.perm_insertionSort _ _).mem_iff.1 hk
    exact ⟨List.mem_dedup.1 this, h2, h1⟩
  · rintro ⟨hk, h2, h1⟩
    refine ⟨(List.perm_insertionSort _ _).mem_iff.2 (List.mem_dedup.2 hk), h1, h2⟩

/-- C2: `check_no_solution` raises `OverconstrainedError` exactly when
the claim's row count `c` exceeds `nbP + nbQ`, `UnderconstrainedError`
exactly when `c < nbP + nbQ`, and returns normally exactly when
`c = nbP + nbQ`. -/
theorem check_no_solution_characterisation (nbP nbQ : ℕ)
    (paths : List (List GraphEdge)) (startends : List (ℤ × ℤ)) :
    ((∃ e u, check_no_solution nbP nbQ paths startends =
        .error (.overconstrained e u)) ↔ claimRowCount paths startends > nbP + nbQ) ∧
      ((∃ e u, check_no_solution nbP nbQ paths startends =
        .error (.underconstrained e u)) ↔ claimRowCount paths startends < nbP + nbQ) ∧
      (check_no_solution nbP nbQ paths startends = .ok () ↔
        claimRowCount paths startends = nbP + nbQ) := by
  have hc : claimRowCount paths startends =
      (paths.map List.length).sum + (branchingNodes startends).length := by
    rw [claimRowCount, branchingNodes_length]
  rw [check_no_solution]
  rcases lt_trichotomy ((paths.map List.length).sum + (branchingNodes startends).length)
      (nbP + nbQ) with h | h | h
  · rw [if_neg (by omega), if_pos h]
    refine ⟨⟨by rintro ⟨e, u, he⟩; exact absurd he (by simp), by omega⟩,
      ⟨fun _ => by omega, fun _ => ⟨_, _, rfl⟩⟩, by simp; omega⟩
  · rw [if_neg (by omega), if_neg (by omega)]
    refine ⟨⟨by rintro ⟨e, u, he⟩; exact absurd he (by simp), by omega⟩,
      ⟨by rintro ⟨e, u, he⟩; exact absurd he (by simp), by omega⟩, by simp; omega⟩
  · rw [if_pos h]
    refine ⟨⟨fun _ => by omega, fun _ => ⟨_, _, rfl⟩⟩,
      ⟨by rintro ⟨e, u, he⟩; exact absurd he (by simp), by omega⟩, by simp; omega⟩

/-! ### Diode state machine (CircuitSolver.build_diode / set_diode / update_diode) -/

/-- Module constant `DIODE_RESISTOR_SUBSTITUTE = 0.1`. -/
def DIODE_RESISTOR_SUBSTITUTE : ℚ := 1 / 10

/-- The `DIODE_STATE` enum. -/
inductive DIODE_STATE where
  | OPEN
  | CLOSED
  | RESISTOR
  deriving DecidableEq, Repr

/-- The `DiodeContainer` dataclass. -/
structure DiodeContainer where
  state : DIODE_STATE
  idP0 : ℤ
  idP1 : ℤ
  idQ : ℤ
  signQ : ℤ
  deriving DecidableEq, Repr

/-- Python index semantics for an in-range (possibly negative) index into
an axis of length `n`: `i % n`, which agrees with NumPy for `-n ≤ i < n`. -/
def pyIdx (n : ℕ) (i : ℤ) : ℕ := (i % (n : ℤ)).toNat

/-- Single-entry matrix assignment `M[r, c] = v` with a Python column
index. -/
def msetEntry (n : ℕ) (M : ℕ → ℕ → ℚ) (r : ℕ) (c : ℤ) (v : ℚ) : ℕ → ℕ → ℚ :=
  fun i j => if i = r ∧ j = pyIdx n c then v else M i j

/-- `CircuitSolver.set_diode`: records the new state in the container
and stamps the diode's matrix row accordingly. -/
def set_diode (n : ℕ) (M0 : ℕ → ℕ → ℚ) (row : ℕ) (dc : DiodeContainer)
    (diode_state : DIODE_STATE) : (ℕ → ℕ → ℚ) × DiodeContainer :=
  let dc' := { dc with state := diode_state }
  match diode_state with
  | .RESISTOR =>
      (msetEntry n (msetEntry n (msetEntry n M0 row dc.idP1 (-1)) row dc.idP0 1)
        row dc.idQ (-DIODE_RESISTOR_SUBSTITUTE), dc')
  | .OPEN =>
      (msetEntry n (msetEntry n (msetEntry n M0 row dc.idP1 1) row dc.idP0 (-1))
        row dc.idQ 0, dc')
  | .CLOSED =>
      (msetEntry n (msetEntry n (msetEntry n M0 row dc.idP1 0) row dc.idP0 0)
        row dc.idQ 1, dc')

/-- `CircuitSolver.build_diode`: stamps the initial (open) row and
registers the diode container; the recorded sign is `+1` when `idP0`
coincides with the edge's stored `start` and `-1` otherwise. -/
def build_diode (n : ℕ) (M0 : ℕ → ℕ → ℚ) (diodes : List (ℕ × DiodeContainer))
    (row : ℕ) (idP0 idP1 idQ start : ℤ) :
    (ℕ → ℕ → ℚ) × List (ℕ × DiodeContainer) :=
  (msetEntry n (msetEntry n M0 row idP1 (-1)) row idP0 1,
    diodes ++ [(row,
      ⟨DIODE_STATE.OPEN, idP0, idP1, idQ, if idP0 = start then 1 else -1⟩)])

/-- One entry of the `update_diode` loop: given the accessor `sol` for
the freshly solved column (`sol idx = solution[idx, step + 1]`), decide
whether the diode transitions, and perform the `set_diode` call if so.
Returns the updated matrix and container together with whether a
transition happened. -/
def diodeStep (n : ℕ) (M0 : ℕ → ℕ → ℚ) (sol : ℤ → ℚ) (row : ℕ)
    (dc : DiodeContainer) : (ℕ → ℕ → ℚ) × DiodeContainer × Bool :=
  if dc.state = .OPEN then
    if (dc.signQ : ℚ) * sol dc.idQ < 0 then
      let p := set_diode n M0 row dc .CLOSED
      (p.1, p.2, true)
    else (M0, dc, false)
  else
    if (dc.signQ : ℚ) * (sol dc.idP0 - sol dc.idP1) > 0 then
      let p := set_diode n M0 row dc .OPEN
      (p.1, p.2, true)
    else (M0, dc, false)

/-- `CircuitSolver.update_diode`: iterates over the diode dictionary (in
insertion order), updating each entry; returns the final matrix, the
updated dictionary and the `recompute` flag. -/
def update_diode (n : ℕ) (M0 : ℕ → ℕ → ℚ) (sol : ℤ → ℚ) :
    List (ℕ × DiodeContainer) → (ℕ → ℕ → ℚ) × List (ℕ × DiodeContainer) × Bool
  | [] => (M0, [], false)
  | (row, dc) :: rest =>
      let p := diodeStep n M0 sol row dc
      let q := update_diode n p.1 sol rest
      (q.1, (row, p.2.1) :: q.2.1, p.2.2 || q.2.2)

/-- The container produced for one diode by `update_diode`, isolated
(it does not depend on the matrix accumulator). -/
def diodeNewDC (sol : ℤ → ℚ) (dc : DiodeContainer) : DiodeContainer :=
  if dc.state = .OPEN then
    if (dc.signQ : ℚ) * sol dc.idQ < 0 then { dc with state := .CLOSED } else dc
  else
    if (dc.signQ : ℚ) * (sol dc.idP0 - sol dc.idP1) > 0 then
      { dc with state := .OPEN }
    else dc

/-- The transition flag produced for one diode by `update_diode`. -/
def diodeFlag (sol : ℤ → ℚ) (dc : DiodeContainer) : Bool :=
  if dc.state = .OPEN then decide ((dc.signQ : ℚ) * sol dc.idQ < 0)
  else decide ((dc.signQ : ℚ) * (sol dc.idP0 - sol dc.idP1) > 0)

theorem diodeStep_dc (n : ℕ) (M0 : ℕ → ℕ → ℚ) (sol : ℤ → ℚ) (row : ℕ)
    (dc : DiodeContainer) :
    (diodeStep n M0 sol row dc).2.1 = diodeNewDC sol dc ∧
      (diodeStep n M0 sol row dc).2.2 = diodeFlag sol dc := by
  unfold diodeStep diodeNewDC diodeFlag set_diode
  by_cases h : dc.state = .OPEN
  · by_cases hc : (dc.signQ : ℚ) * sol dc.idQ < 0 <;> simp [h, hc]
  · by_cases hc : (dc.signQ : ℚ) * (sol dc.idP0 - sol dc.idP1) > 0 <;> simp [h, hc]

theorem update_diode_spec (n : ℕ) (sol : ℤ → ℚ) :
    ∀ (ds : List (ℕ × DiodeContainer)) (M0 : ℕ → ℕ → ℚ),
      (update_diode n M0 sol ds).2.1 =
          ds.map (fun e => (e.1, diodeNewDC sol e.2)) ∧
        (update_diode n M0 sol ds).2.2 = ds.any fun e => diodeFlag sol e.2
  | [], M0 => by simp [update_diode]
  | (row, dc) :: rest, M0 => by
    have h := diodeStep_dc n M0 sol row dc
    have ih := update_diode_spec n sol rest (diodeStep n M0 sol row dc).1
    simp only [update_diode, List.map_cons, List.any_cons]
    exact ⟨by rw [ih.1, h.1], by rw [ih.2, h.2]⟩

theorem diodeFlag_iff_state_ne (sol : ℤ → ℚ) (dc : DiodeContainer) :
    diodeFlag sol dc = true ↔ (diodeNewDC sol dc).state ≠ dc.state := by
  unfold diodeFlag diodeNewDC
  by_cases h : dc.state = .OPEN
  · by_cases hc : (dc.signQ : ℚ) * sol dc.idQ < 0 <;> simp [h, hc]
  · by_cases hc : (dc.signQ : ℚ) * (sol dc.idP0 - sol dc.idP1) > 0
    · simp only [if_neg h, if_pos hc, decide_eq_true_eq]
      exact ⟨fun _ hh => h hh.symm, fun _ => hc⟩
    · simp only [if_neg h, if_neg hc, decide_eq_true_eq]
      exact ⟨fun hp => absurd hp hc, fun hn => absurd rfl hn⟩

theorem update_diode_get? (n : ℕ) (M0 : ℕ → ℕ → ℚ) (sol : ℤ → ℚ)
    (ds : List (ℕ × DiodeContainer)) (i : ℕ) :
    (update_diode n M0 sol ds).2.1.get? i =
      (ds.get? i).map fun e => (e.1, diodeNewDC sol e.2) := by
  rw [(update_diode_spec n sol ds M0).1, List.get?_map]

/-- C3: for every diode record and solved column, an open diode with
`sign·Q < 0` transitions to closed and a closed diode with
`sign·(P0 − P1) > 0` transitions to open; `update_diode` returns `true`
exactly when at least one diode changed state; and `build_diode` records
sign `+1` exactly when `idP0` equals the edge's stored start, `-1`
otherwise. -/
theorem update_diode_transitions (n : ℕ) (M0 : ℕ → ℕ → ℚ) (sol : ℤ → ℚ)
    (ds : List (ℕ × DiodeContainer)) :
    ((update_diode n M0 sol ds).2.1.length = ds.length) ∧
      (∀ (i : ℕ) (row : ℕ) (dc : DiodeContainer), ds.get? i = some (row, dc) →
        (dc.state = .OPEN → (dc.signQ : ℚ) * sol dc.idQ < 0 →
          (update_diode n M0 sol ds).2.1.get? i =
            some (row, { dc with state := .CLOSED })) ∧
        (dc.state = .CLOSED → (dc.signQ : ℚ) * (sol dc.idP0 - sol dc.idP1) > 0 →
          (update_diode n M0 sol ds).2.1.get? i =
            some (row, { dc with state := .OPEN }))) ∧
      ((update_diode n M0 sol ds).2.2 = true ↔
        ∃ (i : ℕ) (row : ℕ) (dc dc' : DiodeContainer),
          ds.get? i = some (row, dc) ∧
          (update_diode n M0 sol ds).2.1.get? i = some (row, dc') ∧
          dc'.state ≠ dc.state) ∧
      (∀ (M0' : ℕ → ℕ → ℚ) (diodes : List (ℕ × DiodeContainer))
          (row : ℕ) (idP0 idP1 idQ start : ℤ),
        ∃ dc : DiodeContainer,
          (build_diode n M0' diodes row idP0 idP1 idQ start).2 =
            diodes ++ [(row, dc)] ∧
          dc.signQ = (if idP0 = start then 1 else -1) ∧ dc.state = .OPEN) := by
  obtain ⟨hmap, hany⟩ := update_diode_spec n sol ds M0
  refine ⟨by rw [hmap]; simp, fun i row dc hi => ?_, ?_, ?_⟩
  · rw [update_diode_get? n M0 sol ds i, hi]
    refine ⟨fun hop hq => ?_, fun hcl hp => ?_⟩
    · show some (row, diodeNewDC sol dc) = some (row, { dc with state := .CLOSED })
      rw [diodeNewDC, if_pos hop, if_pos hq]
    · have hne : dc.state ≠ .OPEN := by rw [hcl]; intro h; cases h
      show some (row, diodeNewDC sol dc) = some (row, { dc with state := .OPEN })
      rw [diodeNewDC, if_neg hne, if_pos hp]
  · rw [hany, List.any_eq_true]
    constructor
    · rintro ⟨e, he, hf⟩
      obtain ⟨i, hi⟩ := List.get?_of_mem he
      refine ⟨i, e.1, e.2, diodeNewDC sol e.2, by rw [hi], ?_, ?_⟩
      · rw [update_diode_get? n M0 sol ds i, hi]
        rfl
      · exact (diodeFlag_iff_state_ne sol e.2).1 hf
    · rintro ⟨i, row, dc, dc', hi, hi', hne⟩
      refine ⟨(row, dc), List.get?_mem hi, ?_⟩
      rw [diodeFlag_iff_state_ne]
      rw [update_diode_get? n M0 sol ds i, hi] at hi'
      have hi'' : (row, diodeNewDC sol dc) = (row, dc') := Option.some.inj hi'
      have h2 : diodeNewDC sol dc = dc' := congrArg Prod.snd hi''
      rw [← h2] at hne
      exact hne
  · intro M0' diodes row idP0 idP1 idQ start
    exact ⟨_, rfl, rfl, rfl⟩

/-- Witness for `update_diode_transitions`: one open diode with
`sign·Q < 0` transitions to closed. -/
theorem update_diode_transitions_witness :
    (update_diode 2 (fun _ _ => 0) (fun i => if i = 1 then -1 else 0)
        [(0, ⟨DIODE_STATE.OPEN, 0, -1, 1, 1⟩)]).2.1.get? 0 =
      some (0, ⟨DIODE_STATE.CLOSED, 0, -1, 1, 1⟩) := by
  exact (((update_diode_transitions 2 (fun _ _ => 0) (fun i => if i = 1 then -1 else 0)
    [(0, ⟨DIODE_STATE.OPEN, 0, -1, 1, 1⟩)]).2.1 0 0
    ⟨DIODE_STATE.OPEN, 0, -1, 1, 1⟩ rfl).1 rfl (by norm_num))

/-- C10: a diode in the `Resistor` state is tested like a closed one: it
moves to `Open` exactly when `sign·(P0 − P1)` at the solved step is
strictly positive and otherwise stays `Resistor`; in particular it is
never moved directly to `Closed`. -/
theorem resistor_state_update (n : ℕ) (M0 : ℕ → ℕ → ℚ) (sol : ℤ → ℚ)
    (ds : List (ℕ × DiodeContainer)) (i : ℕ) (row : ℕ) (dc : DiodeContainer)
    (hi : ds.get? i = some (row, dc)) (hres : dc.state = .RESISTOR) :
    (update_diode n M0 sol ds).2.1.get? i =
      some (row, { dc with state :=
        if (dc.signQ : ℚ) * (sol dc.idP0 - sol dc.idP1) > 0 then .OPEN
        else .RESISTOR }) ∧
    ∀ dc' : DiodeContainer, (update_diode n M0 sol ds).2.1.get? i = some (row, dc') →
      dc'.state ≠ .CLOSED := by
  have hne : dc.state ≠ .OPEN := by rw [hres]; intro h; cases h
  have hget : (update_diode n M0 sol ds).2.1.get? i =
      some (row, diodeNewDC sol dc) := by
    rw [update_diode_get? n M0 sol ds i, hi]
    rfl
  constructor
  · rw [hget]
    by_cases hc : (dc.signQ : ℚ) * (sol dc.idP0 - sol dc.idP1) > 0
    · rw [if_pos hc, diodeNewDC, if_neg hne, if_pos hc]
    · rw [if_neg hc, diodeNewDC, if_neg hne, if_neg hc, ← hres]
  · intro dc' h'
    rw [hget] at h'
    have h2 : diodeNewDC sol dc = dc' := congrArg Prod.snd (Option.some.inj h')
    rw [← h2]
    by_cases hc : (dc.signQ : ℚ) * (sol dc.idP0 - sol dc.idP1) > 0
    · rw [diodeNewDC, if_neg hne, if_pos hc]
      intro h; cases h
    · rw [diodeNewDC, if_neg hne, if_neg hc, hres]
      intro h; cases h

/-- Witness for `resistor_state_update`: a single resistor-state diode
with `sign·(P0 − P1) = 0` stays in the resistor state. -/
theorem resistor_state_update_witness :
    (update_diode 2 (fun _ _ => 0) (fun _ => 0)
        [(0, ⟨DIODE_STATE.RESISTOR, 0, -1, 1, 1⟩)]).2.1.get? 0 =
      some (0, ⟨DIODE_STATE.RESISTOR, 0, -1, 1, 1⟩) := by
  have h := (resistor_state_update 2 (fun _ _ => 0) (fun _ => 0)
    [(0, ⟨DIODE_STATE.RESISTOR, 0, -1, 1, 1⟩)] 0 0
    ⟨DIODE_STATE.RESISTOR, 0, -1, 1, 1⟩ rfl rfl).1
  rw [h]
  norm_num

/-! ### System assembly (CircuitSolver.build_M0M1 / build_source) -/

/-- Single-entry vector assignment `v[r] = x`. -/
def vsetEntry (v : ℕ → ℚ) (r : ℕ) (x : ℚ) : ℕ → ℚ :=
  fun i => if i = r then x else v i

/-- Modelled from the spec: `deriv_finite_diff` is imported from
`lupa/utils/calculator.py`, which is absent from `src/`; the spec (§4.A)
defines it as `g(t) = (f(t+h) − f(t−h)) / (2h)` for a fixed small
`h ≈ 1e-6`. -/
def deriv_finite_diff (f : ℚ → ℚ) : ℚ → ℚ :=
  fun t => (f (t + 1 / 1000000) - f (t - 1 / 1000000)) / (2 * (1 / 1000000))

/-- `TypeError` raised by `build_M0M1` on an unknown element class. -/
inductive BuildErr where
  | unknownElementType
  deriving DecidableEq, Repr

/-- The assembler's mutable state: the two matrices and the three update
registries (`update_M0_dict`, `update_M1_dict`, `update_diode_dict`),
each dictionary as an association list in insertion order. -/
structure BuildSt where
  M0 : ℕ → ℕ → ℚ
  M1 : ℕ → ℕ → ℚ
  update_M0_dict : List (ℕ × List (ℤ × (ℚ → ℚ)))
  update_M1_dict : List (ℕ × List (ℤ × (ℚ → ℚ)))
  update_diode_dict : List (ℕ × DiodeContainer)

/-- The all-zero assembler state (`solve` allocates `M1`, `M0` as zero
arrays and the dictionaries start empty). -/
def initBuildSt : BuildSt :=
  ⟨fun _ _ => 0, fun _ _ => 0, [], [], []⟩

/-- `CircuitSolver.build_resistor`: `R·Q − (P0 − P1) = 0`. -/
def build_resistor (n : ℕ) (st : BuildSt) (elem : Element) (row : ℕ)
    (idP0 idP1 idQ : ℤ) : BuildSt :=
  let st1 :=
    if elem.active then
      { st with update_M0_dict := st.update_M0_dict ++ [(row, [(idQ, elem.vfn)])] }
    else { st with M0 := msetEntry n st.M0 row idQ elem.value }
  { st1 with M0 := msetEntry n (msetEntry n st1.M0 row idP1 1) row idP0 (-1) }

/-- `CircuitSolver.build_capacitor`:
`C·d(P0 − P1)/dt + dC/dt·(P0 − P1) − Q = 0`; for active elements
`calc("-(" + value + ")")` is the pointwise negation of `calc(value)`. -/
def build_capacitor (n : ℕ) (st : BuildSt) (elem : Element) (row : ℕ)
    (idP0 idP1 idQ : ℤ) : BuildSt :=
  let st1 :=
    if elem.active then
      { st with
        update_M0_dict := st.update_M0_dict ++
          [(row, [(idP1, deriv_finite_diff fun t => -(elem.vfn t)),
            (idP0, deriv_finite_diff elem.vfn)])],
        update_M1_dict := st.update_M1_dict ++
          [(row, [(idP1, fun t => -(elem.vfn t)), (idP0, elem.vfn)])] }
    else
      { st with
        M1 := msetEntry n (msetEntry n st.M1 row idP1 (-elem.value)) row idP0 elem.value }
  { st1 with M0 := msetEntry n st1.M0 row idQ (-1) }

/-- `CircuitSolver.build_inductor`:
`L·dQ/dt + dL/dt·Q − (P0 − P1) = 0`. -/
def build_inductor (n : ℕ) (st : BuildSt) (elem : Element) (row : ℕ)
    (idP0 idP1 idQ : ℤ) : BuildSt :=
  let st1 :=
    if elem.active then
      { st with
        update_M0_dict := st.update_M0_dict ++ [(row, [(idQ, deriv_finite_diff elem.vfn)])],
        update_M1_dict := st.update_M1_dict ++ [(row, [(idQ, elem.vfn)])] }
    else { st with M1 := msetEntry n st.M1 row idQ elem.value }
  { st1 with M0 := msetEntry n (msetEntry n st1.M0 row idP1 1) row idP0 (-1) }

/-- `CircuitSolver.build_ground`: one row pinning the anchored pressure
(Ground, PSource) or the path flow (QSource). -/
def build_ground (n : ℕ) (st : BuildSt) (elem : Element) (row : ℕ)
    (idP0 idQ start : ℤ) : BuildSt :=
  if elem.kind = .ground ∨ elem.kind = .psource then
    { st with M0 := msetEntry n st.M0 row start 1 }
  else if elem.kind = .qsource then
    { st with M0 := msetEntry n st.M0 row idQ (if idP0 = start then -1 else 1) }
  else st

/-- One edge of the path loop of `build_M0M1`: pick `idP1` as the other
endpoint, dispatch on the element class, and advance `(row, idP0)`. -/
def processEdge (n : ℕ) (idQ : ℤ) (st : BuildSt) (row : ℕ) (idP0 : ℤ)
    (e : GraphEdge) : Except BuildErr (BuildSt × ℕ × ℤ) :=
  let idP1 := if idP0 = e.start then e.endn else e.start
  match e.elem.kind with
  | .resistor => .ok (build_resistor n st e.elem row idP0 idP1 idQ, row + 1, idP1)
  | .capacitor => .ok (build_capacitor n st e.elem row idP0 idP1 idQ, row + 1, idP1)
  | .inductor => .ok (build_inductor n st e.elem row idP0 idP1 idQ, row + 1, idP1)
  | .diode =>
      let p := build_diode n st.M0 st.update_diode_dict row idP0 idP1 idQ e.start
      .ok ({ st with M0 := p.1, update_diode_dict := p.2 }, row + 1, idP1)
  | .ground => .ok (build_ground n st e.elem row idP0 idQ e.start, row + 1, e.start)
  | .psource => .ok (build_ground n st e.elem row idP0 idQ e.start, row + 1, e.start)
  | .qsource => .ok (build_ground n st e.elem row idP0 idQ e.start, row + 1, e.start)
  | .wire => .error .unknownElementType

/-- The inner edge loop of `build_M0M1` along one path. -/
def processPathEdges (n : ℕ) (idQ : ℤ) :
    List GraphEdge → BuildSt → ℕ → ℤ → Except BuildErr (BuildSt × ℕ)
  | [], st, row, _ => .ok (st, row)
  | e :: rest, st, row, idP0 => do
      let r ← processEdge n idQ st row idP0 e
      processPathEdges n idQ rest r.1 r.2.1 r.2.2

/-- The outer path loop of `build_M0M1`: paths are paired with their
`startends` entry; `idQ` starts at `nbP` and increments per path. -/
def processPaths (n : ℕ) :
    List (List GraphEdge × (ℤ × ℤ)) → BuildSt → ℕ → ℕ → Except BuildErr (BuildSt × ℕ)
  | [], st, row, _ => .ok (st, row)
  | (path, se) :: rest, st, row, idQ => do
      let r ← processPathEdges n (idQ : ℤ) path st row se.1
      processPaths n rest r.1 r.2 (idQ + 1)

/-- The inner loop of a branching equation: walk `startends` with a
column counter starting at `nbP`, stamping `-1` on a start match and
`+1` on an end match (an `elif` in the source: the start test wins). -/
def branchRowLoop (n : ℕ) (row : ℕ) (idnode : ℤ) :
    List (ℤ × ℤ) → (ℕ → ℕ → ℚ) → ℤ → (ℕ → ℕ → ℚ)
  | [], M0, _ => M0
  | se :: rest, M0, idQ =>
      let M0' :=
        if se.1 = idnode then msetEntry n M0 row idQ (-1)
        else if se.2 = idnode then msetEntry n M0 row idQ 1
        else M0
      branchRowLoop n row idnode rest M0' (idQ + 1)

/-- The outer branching loop: one row per qualifying node value, in
`np.unique` (ascending) order. -/
def branchLoop (n nbP : ℕ) (startends : List (ℤ × ℤ)) :
    List ℤ → (ℕ → ℕ → ℚ) → ℕ → (ℕ → ℕ → ℚ) × ℕ
  | [], M0, row => (M0, row)
  | k :: rest, M0, row =>
      branchLoop n nbP startends rest (branchRowLoop n row k startends M0 (nbP : ℤ))
        (row + 1)

/-- `CircuitSolver.build_M0M1` starting from the zero allocation of
`solve`: stamp one row per path edge, then one branching row per
distinct endpoint value (excluding `-1`) occurring more than once. -/
def build_M0M1 (n nbP : ℕ) (paths : List (List GraphEdge))
    (startends : List (ℤ × ℤ)) : Except BuildErr BuildSt := do
  let r ← processPaths n (paths.zip startends) initBuildSt 0 nbP
  let b := branchLoop n nbP startends (branchingNodes startends) r.1.M0 r.2
  .ok { r.1 with M0 := b.1 }

/-- `CircuitSolver.build_source` starting from the zero allocation of
`solve`: walk all path edges with a row counter; `PSource`/`QSource`
rows receive the element value (or an update entry when active). -/
def build_source_edges :
    List GraphEdge → (ℕ → ℚ) → List (ℕ × (ℚ → ℚ)) → ℕ →
      (ℕ → ℚ) × List (ℕ × (ℚ → ℚ)) × ℕ
  | [], S, upd, row => (S, upd, row)
  | e :: rest, S, upd, row =>
      if e.elem.kind = .psource ∨ e.elem.kind = .qsource then
        if e.elem.active then
          build_source_edges rest S (upd ++ [(row, e.elem.vfn)]) (row + 1)
        else build_source_edges rest (vsetEntry S row e.elem.value) upd (row + 1)
      else build_source_edges rest S upd (row + 1)

/-- The path loop of `build_source`. -/
def build_source_paths :
    List (List GraphEdge) → (ℕ → ℚ) → List (ℕ × (ℚ → ℚ)) → ℕ →
      (ℕ → ℚ) × List (ℕ × (ℚ → ℚ)) × ℕ
  | [], S, upd, row => (S, upd, row)
  | path :: rest, S, upd, row =>
      let r := build_source_edges path S upd row
      build_source_paths rest r.1 r.2.1 r.2.2

/-- `CircuitSolver.build_source` from the zero source vector. -/
def build_source (paths : List (List GraphEdge)) :
    (ℕ → ℚ) × List (ℕ × (ℚ → ℚ)) :=
  let r := build_source_paths paths (fun _ => 0) [] 0
  (r.1, r.2.1)

/-! ### C6: the branching rows of build_M0M1 -/

/-- Total number of path rows: one per edge of each path. -/
def totalRows (paths : List (List GraphEdge)) : ℕ :=
  (paths.map List.length).sum

theorem msetEntry_row_ne (n : ℕ) (M : ℕ → ℕ → ℚ) (r : ℕ) (c : ℤ) (v : ℚ)
    (i j : ℕ) (h : i ≠ r) : msetEntry n M r c v i j = M i j := by
  simp [msetEntry, h]

theorem msetEntry_col_ne (n : ℕ) (M : ℕ → ℕ → ℚ) (r : ℕ) (c : ℤ) (v : ℚ)
    (i j : ℕ) (h : j ≠ pyIdx n c) : msetEntry n M r c v i j = M i j := by
  simp only [msetEntry]
  rw [if_neg]
  rintro ⟨-, h2⟩
  exact h h2

theorem msetEntry_same (n : ℕ) (M : ℕ → ℕ → ℚ) (r : ℕ) (c : ℤ) (v : ℚ) :
    msetEntry n M r c v r (pyIdx n c) = v := by
  simp [msetEntry]

theorem build_resistor_row_ne (n : ℕ) (st : BuildSt) (elem : Element) (row : ℕ)
    (idP0 idP1 idQ : ℤ) (i j : ℕ) (hi : i ≠ row) :
    (build_resistor n st elem row idP0 idP1 idQ).M0 i j = st.M0 i j := by
  simp only [build_resistor]
  split <;>
    simp only [msetEntry_row_ne n _ row _ _ i j hi]

theorem build_capacitor_row_ne (n : ℕ) (st : BuildSt) (elem : Element) (row : ℕ)
    (idP0 idP1 idQ : ℤ) (i j : ℕ) (hi : i ≠ row) :
    (build_capacitor n st elem row idP0 idP1 idQ).M0 i j = st.M0 i j := by
  simp only [build_capacitor]
  split <;>
    simp only [msetEntry_row_ne n _ row _ _ i j hi]

theorem build_inductor_row_ne (n : ℕ) (st : BuildSt) (elem : Element) (row : ℕ)
    (idP0 idP1 idQ : ℤ) (i j : ℕ) (hi : i ≠ row) :
    (build_inductor n st elem row idP0 idP1 idQ).M0 i j = st.M0 i j := by
  simp only [build_inductor]
  split <;>
    simp only [msetEntry_row_ne n _ row _ _ i j hi]

theorem build_ground_row_ne (n : ℕ) (st : BuildSt) (elem : Element) (row : ℕ)
    (idP0 idQ start : ℤ) (i j : ℕ) (hi : i ≠ row) :
    (build_ground n st elem row idP0 idQ start).M0 i j = st.M0 i j := by
  simp only [build_ground]
  split
  · exact msetEntry_row_ne n _ row _ _ i j hi
  split
  · exact msetEntry_row_ne n _ row _ _ i j hi
  · rfl

theorem processEdge_rows (n : ℕ) (idQ : ℤ) (st : BuildSt) (row : ℕ) (idP0 : ℤ)
    (e : GraphEdge) (res : BuildSt × ℕ × ℤ)
    (h : processEdge n idQ st row idP0 e = .ok res) :
    res.2.1 = row + 1 ∧ ∀ i j, i ≠ row → res.1.M0 i j = st.M0 i j := by
  cases hk : e.elem.kind <;> simp only [processEdge, hk, Except.ok.injEq] at h
  case resistor =>
    rw [← h]
    exact ⟨rfl, fun i j hi => build_resistor_row_ne n st e.elem row _ _ _ i j hi⟩
  case capacitor =>
    rw [← h]
    exact ⟨rfl, fun i j hi => build_capacitor_row_ne n st e.elem row _ _ _ i j hi⟩
  case inductor =>
    rw [← h]
    exact ⟨rfl, fun i j hi => build_inductor_row_ne n st e.elem row _ _ _ i j hi⟩
  case diode =>
    rw [← h]
    refine ⟨rfl, fun i j hi => ?_⟩
    simp only [build_diode, msetEntry_row_ne n _ row _ _ i j hi]
  case ground =>
    rw [← h]
    exact ⟨rfl, fun i j hi => build_ground_row_ne n st e.elem row _ _ _ i j hi⟩
  case psource =>
    rw [← h]
    exact ⟨rfl, fun i j hi => build_ground_row_ne n st e.elem row _ _ _ i j hi⟩
  case qsource =>
    rw [← h]
    exact ⟨rfl, fun i j hi => build_ground_row_ne n st e.elem row _ _ _ i j hi⟩
  case wire => exact absurd h (by simp)

theorem processPathEdges_rows (n : ℕ) (idQ : ℤ) :
    ∀ (path : List GraphEdge) (st : BuildSt) (row : ℕ) (idP0 : ℤ)
      (res : BuildSt × ℕ),
      processPathEdges n idQ path st row idP0 = .ok res →
      res.2 = row + path.length ∧
        ∀ i j, i < row ∨ row + path.length ≤ i → res.1.M0 i j = st.M0 i j
  | [], st, row, idP0, res, h => by
      simp only [processPathEdges, Except.ok.injEq] at h
      rw [← h]
      exact ⟨by simp, fun i j _ => rfl⟩
  | e :: rest, st, row, idP0, res, h => by
      simp only [processPathEdges, bind, Except.bind] at h
      cases he : processEdge n idQ st row idP0 e with
      | error err => rw [he] at h; exact absurd h (by simp)
      | ok r =>
          rw [he] at h
          obtain ⟨hrow, hout⟩ := processEdge_rows n idQ st row idP0 e r he
          obtain ⟨hrow', hout'⟩ := processPathEdges_rows n idQ rest r.1 r.2.1 r.2.2 res h
          rw [hrow] at hrow' hout'
          constructor
          · rw [hrow']
            simp only [List.length_cons]
            omega
          · intro i j hi
            simp only [List.length_cons] at hi
            rw [hout' i j (by omega), hout i j (by omega)]

theorem processPaths_rows (n : ℕ) :
    ∀ (pairs : List (List GraphEdge × (ℤ × ℤ))) (st : BuildSt) (row : ℕ) (idQ : ℕ)
      (res : BuildSt × ℕ),
      processPaths n pairs st row idQ = .ok res →
      res.2 = row + (pairs.map fun pr => pr.1.length).sum ∧
        ∀ i j, i < row ∨ row + (pairs.map fun pr => pr.1.length).sum ≤ i →
          res.1.M0 i j = st.M0 i j
  | [], st, row, idQ, res, h => by
      simp only [processPaths, Except.ok.injEq] at h
      rw [← h]
      exact ⟨by simp, fun i j _ => rfl⟩
  | (path, se) :: rest, st, row, idQ, res, h => by
      simp only [processPaths, bind, Except.bind] at h
      cases he : processPathEdges n (idQ : ℤ) path st row se.1 with
      | error err => rw [he] at h; exact absurd h (by simp)
      | ok r =>
          rw [he] at h
          obtain ⟨hrow, hout⟩ := processPathEdges_rows n (idQ : ℤ) path st row se.1 r he
          obtain ⟨hrow', hout'⟩ := processPaths_rows n rest r.1 r.2 (idQ + 1) res h
          rw [hrow] at hrow' hout'
          constructor
          · rw [hrow']
            simp only [List.map_cons, List.sum_cons]
            omega
          · intro i j hi
            simp only [List.map_cons, List.sum_cons] at hi
            rw [hout' i j (by omega), hout i j (by omega)]

theorem branchRowLoop_row_ne (n : ℕ) (row : ℕ) (idnode : ℤ) :
    ∀ (ses : List (ℤ × ℤ)) (M0 : ℕ → ℕ → ℚ) (idQ : ℤ) (i j : ℕ), i ≠ row →
      branchRowLoop n row idnode ses M0 idQ i j = M0 i j
  | [], M0, idQ, i, j, hi => rfl
  | se :: rest, M0, idQ, i, j, hi => by
      simp only [branchRowLoop]
      rw [branchRowLoop_row_ne n row idnode rest _ _ i j hi]
      split
      · exact msetEntry_row_ne n M0 row idQ _ i j hi
      split
      · exact msetEntry_row_ne n M0 row idQ _ i j hi
      · rfl

theorem branchRowLoop_col_lt (n : ℕ) (row : ℕ) (idnode : ℤ) :
    ∀ (ses : List (ℤ × ℤ)) (M0 : ℕ → ℕ → ℚ) (q : ℕ), q + ses.length ≤ n →
      ∀ c, c < q → branchRowLoop n row idnode ses M0 (q : ℤ) row c = M0 row c
  | [], M0, q, hq, c, hc => rfl
  | se :: rest, M0, q, hq, c, hc => by
      simp only [branchRowLoop]
      have hcast : ((q : ℤ) + 1) = ((q + 1 : ℕ) : ℤ) := by push_cast; ring
      have hlen : (q + 1) + rest.length ≤ n := by
        simp only [List.length_cons] at hq; omega
      have hpy : pyIdx n (q : ℤ) = q := by
        simp only [pyIdx]
        rw [Int.emod_eq_of_lt (by positivity) (by exact_mod_cast by omega)]
        simp
      rw [hcast, branchRowLoop_col_lt n row idnode rest _ (q + 1) hlen c (by omega)]
      split
      · exact msetEntry_col_ne n M0 row _ _ row c (by rw [hpy]; omega)
      split
      · exact msetEntry_col_ne n M0 row _ _ row c (by rw [hpy]; omega)
      · rfl

theorem branchRowLoop_content (n : ℕ) (row : ℕ) (idnode : ℤ) :
    ∀ (ses : List (ℤ × ℤ)) (M0 : ℕ → ℕ → ℚ) (q : ℕ), q + ses.length ≤ n →
      ∀ (p : ℕ) (se : ℤ × ℤ), ses.get? p = some se →
        branchRowLoop n row idnode ses M0 (q : ℤ) row (q + p) =
          (if se.1 = idnode then -1
            else if se.2 = idnode then 1 else M0 row (q + p))
  | [], M0, q, hq, p, se, hp => by simp at hp
  | se0 :: rest, M0, q, hq, p, se, hp => by
      have hlen : (q + 1) + rest.length ≤ n := by
        simp only [List.length_cons] at hq; omega
      have hcast : ((q : ℤ) + 1) = ((q + 1 : ℕ) : ℤ) := by push_cast; ring
      have hpy : pyIdx n (q : ℤ) = q := by
        simp only [pyIdx]
        rw [Int.emod_eq_of_lt (by positivity) (by exact_mod_cast by omega)]
        simp
      cases p with
      | zero =>
          simp only [List.get?_cons_zero, Option.some.injEq] at hp
          subst hp
          simp only [branchRowLoop, Nat.add_zero]
          rw [hcast, branchRowLoop_col_lt n row idnode rest _ (q + 1) hlen q (by omega)]
          split
          · have hs := msetEntry_same n M0 row ((q : ℕ) : ℤ) (-1)
            rwa [hpy] at hs
          split
          · have hs := msetEntry_same n M0 row ((q : ℕ) : ℤ) 1
            rwa [hpy] at hs
          · rfl
      | succ p' =>
          simp only [List.get?_cons_succ] at hp
          simp only [branchRowLoop]
          have harith : q + (p' + 1) = (q + 1) + p' := by omega
          rw [harith, hcast,
            branchRowLoop_content n row idnode rest _ (q + 1) hlen p' se hp]
          by_cases h1 : se.1 = idnode
          · simp only [if_pos h1]
          by_cases h2 : se.2 = idnode
          · simp only [if_neg h1, if_pos h2]
          · simp only [if_neg h1, if_neg h2]
            split
            · exact msetEntry_col_ne n M0 row _ _ row ((q + 1) + p') (by rw [hpy]; omega)
            split
            · exact msetEntry_col_ne n M0 row _ _ row ((q + 1) + p') (by rw [hpy]; omega)
            · rfl

theorem branchLoop_out (n nbP : ℕ) (startends : List (ℤ × ℤ)) :
    ∀ (ks : List ℤ) (M0 : ℕ → ℕ → ℚ) (row : ℕ) (i j : ℕ),
      i < row ∨ row + ks.length ≤ i →
      (branchLoop n nbP startends ks M0 row).1 i j = M0 i j
  | [], M0, row, i, j, hi => rfl
  | k :: rest, M0, row, i, j, hi => by
      simp only [List.length_cons] at hi
      simp only [branchLoop]
      rw [branchLoop_out n nbP startends rest _ (row + 1) i j (by omega)]
      exact branchRowLoop_row_ne n row k startends M0 (nbP : ℤ) i j (by omega)

theorem branchLoop_content (n nbP : ℕ) (startends : List (ℤ × ℤ))
    (hcols : nbP + startends.length ≤ n) :
    ∀ (ks : List ℤ) (M0 : ℕ → ℕ → ℚ) (row : ℕ) (jdx : ℕ) (k : ℤ),
      ks.get? jdx = some k →
      ∀ (p : ℕ) (se : ℤ × ℤ), startends.get? p = some se →
        (branchLoop n nbP startends ks M0 row).1 (row + jdx) (nbP + p) =
          (if se.1 = k then -1 else if se.2 = k then 1 else M0 (row + jdx) (nbP + p))
  | [], M0, row, jdx, k, hk, p, se, hp => by simp at hk
  | k0 :: rest, M0, row, jdx, k, hk, p, se, hp => by
      cases jdx with
      | zero =>
          simp only [List.get?_cons_zero, Option.some.injEq] at hk
          subst hk
          simp only [branchLoop, Nat.add_zero]
          rw [branchLoop_out n nbP startends rest _ (row + 1) row (nbP + p) (by omega)]
          exact branchRowLoop_content n row k0 startends M0 nbP hcols p se hp
      | succ jdx' =>
          simp only [List.get?_cons_succ] at hk
          simp only [branchLoop]
          have harith : row + (jdx' + 1) = (row + 1) + jdx' := by omega
          rw [harith,
            branchLoop_content n nbP startends hcols rest _ (row + 1) jdx' k hk p se hp]
          by_cases h1 : se.1 = k
          · simp only [if_pos h1]
          by_cases h2 : se.2 = k
          · simp only [if_neg h1, if_pos h2]
          · simp only [if_neg h1, if_neg h2]
            exact branchRowLoop_row_ne n row k0 startends M0 (nbP : ℤ)
              ((row + 1) + jdx') (nbP + p) (by omega)

theorem build_source_edges_rows :
    ∀ (path : List GraphEdge) (S : ℕ → ℚ) (upd : List (ℕ × (ℚ → ℚ))) (row : ℕ),
      (build_source_edges path S upd row).2.2 = row + path.length ∧
        ∀ i, i < row ∨ row + path.length ≤ i →
          (build_source_edges path S upd row).1 i = S i
  | [], S, upd, row => ⟨by simp [build_source_edges], fun i _ => rfl⟩
  | e :: rest, S, upd, row => by
      simp only [build_source_edges, List.length_cons]
      split
      · split
        · obtain ⟨h1, h2⟩ := build_source_edges_rows rest S
            (upd ++ [(row, e.elem.vfn)]) (row + 1)
          exact ⟨by omega, fun i hi => h2 i (by omega)⟩
        · obtain ⟨h1, h2⟩ := build_source_edges_rows rest
            (vsetEntry S row e.elem.value) upd (row + 1)
          refine ⟨by omega, fun i hi => ?_⟩
          rw [h2 i (by omega)]
          simp only [vsetEntry]
          rw [if_neg (by omega)]
      · obtain ⟨h1, h2⟩ := build_source_edges_rows rest S upd (row + 1)
        exact ⟨by omega, fun i hi => h2 i (by omega)⟩

theorem build_source_paths_rows :
    ∀ (paths : List (List GraphEdge)) (S : ℕ → ℚ) (upd : List (ℕ × (ℚ → ℚ))) (row : ℕ),
      (build_source_paths paths S upd row).2.2 = row + totalRows paths ∧
        ∀ i, i < row ∨ row + totalRows paths ≤ i →
          (build_source_paths paths S upd row).1 i = S i
  | [], S, upd, row => ⟨by simp [build_source_paths, totalRows], fun i _ => rfl⟩
  | path :: rest, S, upd, row => by
      simp only [build_source_paths, totalRows, List.map_cons, List.sum_cons]
      obtain ⟨h1, h2⟩ := build_source_edges_rows path S upd row
      obtain ⟨h1', h2'⟩ := build_source_paths_rows rest
        (build_source_edges path S upd row).1
        (build_source_edges path S upd row).2.1
        (build_source_edges path S upd row).2.2
      rw [h1] at h1' h2'
      rw [h1]
      constructor
      · rw [h1']
        simp only [totalRows]
        omega
      · intro i hi
        simp only [totalRows] at h2' ⊢
        rw [h2' i (by omega), h2 i (by omega)]

theorem zip_length_sum (paths : List (List GraphEdge)) (startends : List (ℤ × ℤ))
    (hlen : paths.length = startends.length) :
    ((paths.zip startends).map fun pr => pr.1.length).sum = totalRows paths := by
  have h1 : ((paths.zip startends).map fun pr => pr.1.length) =
      ((paths.zip startends).map Prod.fst).map List.length := by
    rw [List.map_map]
    rfl
  rw [totalRows, h1, List.map_fst_zip paths startends (le_of_eq hlen)]

/-- C6 (amended): after `build_M0M1`, for every qualifying node value
`k` (the `j`-th in ascending `np.unique` order) there is exactly one
branching row `r = totalRows + j`, in which the flow column of path `p`
holds `-1` if `startends[p][0] == k`, **else** `+1` if
`startends[p][1] == k` (the start test takes precedence: a path that
both starts and ends at `k` contributes `-1`, not `0`), else `0`; all
rows beyond the branching rows stay zero, the qualifying values are
exactly the endpoint values other than `-1` occurring more than once,
and the source vector is zero on every branching row. -/
theorem build_M0M1_branch_rows (n nbP : ℕ) (paths : List (List GraphEdge))
    (startends : List (ℤ × ℤ)) (st : BuildSt)
    (hlen : paths.length = startends.length)
    (hcols : nbP + startends.length ≤ n)
    (hrows : totalRows paths + (branchingNodes startends).length ≤ n)
    (h : build_M0M1 n nbP paths startends = .ok st) :
    (∀ jdx k, (branchingNodes startends).get? jdx = some k →
      ∀ p se, startends.get? p = some se →
        st.M0 (totalRows paths + jdx) (nbP + p) =
          (if se.1 = k then -1 else if se.2 = k then 1 else 0)) ∧
    (∀ i j, totalRows paths + (branchingNodes startends).length ≤ i →
      st.M0 i j = 0) ∧
    (∀ k, k ∈ branchingNodes startends ↔
      k ≠ -1 ∧ 1 < (flatEndpoints startends).count k) ∧
    (∀ jdx, jdx < (branchingNodes startends).length →
      (build_source paths).1 (totalRows paths + jdx) = 0) := by
  cases hp : processPaths n (paths.zip startends) initBuildSt 0 nbP with
  | error e =>
      rw [build_M0M1, hp] at h
      exact absurd h (by simp [bind, Except.bind])
  | ok r =>
      rw [build_M0M1, hp] at h
      simp only [bind, Except.bind, Except.ok.injEq] at h
      obtain ⟨hrow, hout⟩ := processPaths_rows n (paths.zip startends) initBuildSt 0 nbP r hp
      rw [zip_length_sum paths startends hlen, Nat.zero_add] at hrow hout
      have hM0 : st.M0 = (branchLoop n nbP startends (branchingNodes startends)
          r.1.M0 r.2).1 := by rw [← h]
      refine ⟨fun jdx k hk p se hp' => ?_, fun i j hi => ?_, fun k => ?_,
        fun jdx hjdx => ?_⟩
      · rw [hM0, hrow,
          branchLoop_content n nbP startends hcols (branchingNodes startends)
            r.1.M0 (totalRows paths) jdx k hk p se hp']
        have h0 : r.1.M0 (totalRows paths + jdx) (nbP + p) = 0 := by
          rw [hout _ _ (Or.inr (by omega))]
          rfl
        rw [h0]
      · rw [hM0, hrow,
          branchLoop_out n nbP startends (branchingNodes startends) r.1.M0
            (totalRows paths) i j (Or.inr hi),
          hout i j (Or.inr (by omega))]
        rfl
      · simp only [branchingNodes, List.mem_filter, Bool.and_eq_true, decide_eq_true_eq]
        constructor
        · rintro ⟨-, h1, h2⟩
          exact ⟨h2, h1⟩
        · rintro ⟨h2, h1⟩
          refine ⟨?_, h1, h2⟩
          simp only [npUnique]
          rw [(List.perm_insertionSort _ _).mem_iff, List.mem_dedup]
          exact List.count_pos_iff_mem.1 (by omega)
      · obtain ⟨h1, h2⟩ := build_source_paths_rows paths (fun _ => 0) [] 0
        simp only [build_source]
        rw [h2 _ (Or.inr (by omega))]

/-- A unit resistor with a constant value, used in concrete assemblies. -/
def unitResistor : Element := ⟨.resistor, 1, false, fun _ => 0⟩

/-- A one-path circuit whose single edge starts and ends at node `0`
(`startends = [[0, 0]]`), so node `0` occurs twice among the endpoints
and receives a branching row.  `check_no_solution` accepts it:
`c = 1 + 1 = nbP + nbQ = 1 + 1`. -/
def selfLoopPaths : List (List GraphEdge) := [[⟨0, 0, unitResistor⟩]]

/-- Startends of the self-loop circuit. -/
def selfLoopStartends : List (ℤ × ℤ) := [(0, 0)]

/-- The claim's branching-row entry: the *sum* of `-1` (start match)
and `+1` (end match), so that a self-loop contributes `0`. -/
def specBranchEntry (se : ℤ × ℤ) (k : ℤ) : ℚ :=
  (if se.1 = k then -1 else 0) + (if se.2 = k then 1 else 0)

/-- The assembler state of the self-loop circuit. -/
def selfLoopBuildSt : BuildSt :=
  match build_M0M1 2 1 selfLoopPaths selfLoopStartends with
  | .ok st => st
  | .error _ => initBuildSt

/-- Counterexample to C6 as stated: on the self-loop input the code's
`elif` writes `-1` into the branching row's flow column (row 1, column
1, with `nbP = 1`, `n = 2`), whereas the claim's summed contribution is
`-1 + 1 = 0`. -/
theorem branch_row_selfloop_counterexample :
    build_M0M1 2 1 selfLoopPaths selfLoopStartends = .ok selfLoopBuildSt ∧
      selfLoopBuildSt.M0 1 1 = -1 ∧
      specBranchEntry (0, 0) 0 = 0 ∧ (-1 : ℚ) ≠ 0 :=
  ⟨rfl, by decide, by norm_num [specBranchEntry], by norm_num⟩

/-- Two single-edge paths both starting at node `0` and ending at the
eliminated `-1` side: node `0` branches. -/
def wPaths : List (List GraphEdge) :=
  [[⟨0, -1, unitResistor⟩], [⟨0, -1, unitResistor⟩]]

/-- Startends of the two-path witness circuit. -/
def wStartends : List (ℤ × ℤ) := [(0, -1), (0, -1)]

/-- The assembler state of the witness circuit. -/
def wBuildSt : BuildSt :=
  match build_M0M1 3 1 wPaths wStartends with
  | .ok st => st
  | .error _ => initBuildSt

/-- Witness for `build_M0M1_branch_rows`: in the two-path circuit the
branching row of node `0` (row 2) carries `-1` in the first flow column. -/
theorem build_M0M1_branch_rows_witness :
    build_M0M1 3 1 wPaths wStartends = .ok wBuildSt ∧ wBuildSt.M0 2 1 = -1 := by
  have hok : build_M0M1 3 1 wPaths wStartends = .ok wBuildSt := rfl
  refine ⟨hok, ?_⟩
  have h := (build_M0M1_branch_rows 3 1 wPaths wStartends wBuildSt rfl (by decide)
    (by decide) hok).1 0 0 (by decide) 0 (0, -1) rfl
  have h2 : totalRows wPaths = 2 := rfl
  rw [h2] at h
  simpa using h

/-! ### Expression calculator (src/utils/calculator.py)

The scanner/parser pipeline of `calculator.py` is embedded with floats
as exact rationals.  Python interleaves scanning and parsing lazily
through generators; here the input is scanned to a token list first and
parsed afterwards — for any input on which scanning succeeds, or fails
before the parser could fail, the observable result is identical (all
claims below are of this shape).  The closure-based parse result is
represented as an expression tree plus the ordered free-variable list,
evaluated by `evalExpr`.  Errors beyond `CalculatorException`
(`RuntimeError` from PEP 479, `ZeroDivisionError`, `TypeError`,
values outside `ℚ` such as `sin(1)` or fractional powers) get their own
constructors; none of them is reachable in the claims. -/

/-- Error taxonomy: the `CalculatorException` subclasses of
`src/exceptions/calculatorexceptions.py` plus the non-`Calculator`
escapes described above. -/
inductive CalcTok where
  | num (q : ℚ)
  | sym (s : String)
  deriving DecidableEq, Repr

inductive CalcErr where
  | unexpectedCharacter (t : CalcTok)
  | badNumber (s : String)
  | badFunction (s : String)
  | unexpectedEnd
  | wrongArgsLen (got expected : ℕ)
  | readOnly (name : String)
  | runtimeError
  | outOfFuel
  | nonRationalValue
  | zeroDivision
  | typeErr
  deriving DecidableEq, Repr

/-- The default function table (`functions` in `calculator.py`). -/
def functionNames : List String :=
  ["sin", "cos", "tan", "asin", "acos", "atan", "abs", "floor"]

/-- `flatten(operators)`: operator tokens in precedence-dictionary
order (exponentiation first, logical-or last). -/
def operatorTokens : List String :=
  ["**", "*", "/", "%", "+", "-", "<", "<=", ">", ">=", "==", "!=", "&", "^", "|"]

/-- Operator tokens of one precedence level (`operators[precedence]`);
level 1 is exponentiation, level 8 logical or. -/
def operatorsLevel : ℕ → List String
  | 1 => ["**"]
  | 2 => ["*", "/", "%"]
  | 3 => ["+", "-"]
  | 4 => ["<", "<=", ">", ">="]
  | 5 => ["==", "!="]
  | 6 => ["&"]
  | 7 => ["^"]
  | 8 => ["|"]
  | _ => []

/-- `np.e` as the exact rational value of its IEEE-754 double. -/
def npE : ℚ := 6121026514868073 / 2251799813685248

/-- `np.pi` as the exact rational value of its IEEE-754 double. -/
def npPi : ℚ := 884279719003555 / 281474976710656

/-- Default protected constants `{"e": np.e, "pi": np.pi}`. -/
def constantList : List (String × ℚ) := [("e", npE), ("pi", npPi)]

/-- Default protected variables `{"t": "t"}` (names only). -/
def variableNames : List String := ["t"]

/-- `Calculator.all_tokens` of the default instance: functions, then
flattened operators, then constants, then variables. -/
def all_tokens : List String :=
  functionNames ++ operatorTokens ++ constantList.map Prod.fst ++ variableNames

/-- `Calculator.all_chars`: every character of every token plus
`"0123456789.e-+()"`. -/
def all_chars : List Char :=
  all_tokens.flatMap String.data ++ "0123456789.e-+()".data

/-- Python `str.isspace` restricted to ASCII (the only whitespace the
token alphabet admits). -/
def pyIsSpace (c : Char) : Bool :=
  c = ' ' || c = '\t' || c = '\n' || c = '\x0b' || c = '\x0c' || c = '\r'

/-- Splitting a character list on a separator (all occurrences), as
Python `str.split(sep)` does for `float` parsing below. -/
def splitOnChar (sep : Char) : List Char → List (List Char)
  | [] => [[]]
  | c :: rest =>
      let r := splitOnChar sep rest
      if c = sep then [] :: r
      else
        match r with
        | [] => [[c]]
        | h :: t => (c :: h) :: t

/-- Value of a digit string. -/
def digitsVal (l : List Char) : ℕ :=
  l.foldl (fun a c => a * 10 + (c.toNat - 48)) 0

/-- Mantissa of a Python float literal: `digits`, `digits.digits`,
`digits.` or `.digits` with at least one digit. -/
def mantissaVal (m : List Char) : Option ℚ :=
  match splitOnChar '.' m with
  | [a] => if a ≠ [] && a.all Char.isDigit then some (digitsVal a) else none
  | [a, b] =>
      if (a ++ b) ≠ [] && a.all Char.isDigit && b.all Char.isDigit then
        some ((digitsVal a : ℚ) + (digitsVal b : ℚ) / 10 ^ b.length)
      else none
  | _ => none

/-- Exponent of a Python float literal: an optional single sign then at
least one digit. -/
def expVal : List Char → Option ℤ
  | '+' :: r => if r ≠ [] && r.all Char.isDigit then some (digitsVal r) else none
  | '-' :: r => if r ≠ [] && r.all Char.isDigit then some (-(digitsVal r : ℤ)) else none
  | r => if r ≠ [] && r.all Char.isDigit then some (digitsVal r) else none

/-- Python `float(s)` on the character set the scanner can produce
(digits, dots, `e`, signs): `none` models `ValueError`. -/
def pyFloat (s : List Char) : Option ℚ :=
  match splitOnChar 'e' s with
  | [m] => mantissaVal m
  | [m, ex] => do
      let mv ← mantissaVal m
      let ev ← expVal ex
      some (mv * (10 : ℚ) ^ ev)
  | _ => none

/-- Does any calculator token have `s` as a prefix?  This is the
residual-token-set test of `is_char_inorder`: after consuming `s`, the
surviving tokens are exactly those with prefix `s`, and the
`range(max(len(tok)))` bound of the generator can never be exhausted
while a token still extends `s`. -/
def somePrefixOf (s : List Char) (toks : List String) : Bool :=
  toks.any fun t => s.isPrefixOf t.data

/-- `Scanner._take_function_operator_variable`'s greedy consumption:
extend the match while some token still has the extended string as a
prefix. -/
def takeFov (toks : List String) (acc : List Char) :
    List Char → List Char × List Char
  | [] => (acc, [])
  | c :: rest =>
      if somePrefixOf (acc ++ [c]) toks then takeFov toks (acc ++ [c]) rest
      else (acc, c :: rest)

/-- `Scanner._take_number`: digits/dots, then a run of `e`s, and if the
number now ends in `e`, a run of signs and another run of digits/dots.
Returns the number characters and the remaining input. -/
def takeNumber (cs : List Char) : List Char × List Char :=
  let d := cs.takeWhile fun c => c.isDigit || c = '.'
  let r1 := cs.dropWhile fun c => c.isDigit || c = '.'
  if d = [] then ([], cs)
  else
    let es := r1.takeWhile fun c => c = 'e'
    let r2 := r1.dropWhile fun c => c = 'e'
    let number := d ++ es
    if number.getLast? = some 'e' then
      let sgns := r2.takeWhile fun c => c = '-' || c = '+'
      let r3 := r2.dropWhile fun c => c = '-' || c = '+'
      let more := r3.takeWhile fun c => c.isDigit || c = '.'
      let r4 := r3.dropWhile fun c => c.isDigit || c = '.'
      (number ++ sgns ++ more, r4)
    else (number, r2)

/-- Characters `Scanner` appends to an unknown token before raising
`BadFunctionError`. -/
def lowerAlnum : List Char := "abcdefghijklmnopqrstuvwxyz0123456789".data

/-- One pass of `Scanner.scan`'s `while` body plus the loop, fuel-bounded
(the source loops forever on inputs like `"n"`; `outOfFuel` stands for
that divergence and is unreachable on terminating inputs).  An empty
input after whitespace consumption makes `peek` raise `StopIteration`
inside the generator, a `RuntimeError` under PEP 479 (`runtimeError`). -/
def scanLoop : ℕ → List Char → List CalcTok → Except CalcErr (List CalcTok)
  | 0, _, _ => .error .outOfFuel
  | _ + 1, [], acc => .ok acc
  | fuel + 1, cs@(_ :: _), acc =>
      let cs1 := cs.dropWhile pyIsSpace
      match cs1 with
      | [] => .error .runtimeError
      | c0 :: _ =>
          if c0 ∉ all_chars then .error (.unexpectedCharacter (.sym (String.singleton c0)))
          else
            let parens := cs1.takeWhile fun c => c = '(' || c = ')'
            let cs2 := cs1.dropWhile fun c => c = '(' || c = ')'
            let acc1 := acc ++ parens.map fun c => CalcTok.sym (String.singleton c)
            let np := takeNumber cs2
            if np.1 = [] then
              let fv := takeFov all_tokens [] np.2
              if fv.1 = [] then scanLoop fuel fv.2 acc1
              else if (String.mk fv.1) ∈ all_tokens then
                scanLoop fuel fv.2 (acc1 ++ [CalcTok.sym (String.mk fv.1)])
              else
                let extra := fv.2.takeWhile (· ∈ lowerAlnum)
                .error (.badFunction (String.mk (fv.1 ++ extra)))
            else
              match pyFloat np.1 with
              | none => .error (.badNumber (String.mk np.1))
              | some q =>
                  let acc2 := acc1 ++ [CalcTok.num q]
                  let fv := takeFov all_tokens [] np.2
                  if fv.1 = [] then scanLoop fuel fv.2 acc2
                  else if (String.mk fv.1) ∈ all_tokens then
                    scanLoop fuel fv.2 (acc2 ++ [CalcTok.sym (String.mk fv.1)])
                  else
                    let extra := fv.2.takeWhile (· ∈ lowerAlnum)
                    .error (.badFunction (String.mk (fv.1 ++ extra)))

/-- `Scanner(expression).scan()` run to completion. -/
def scan (s : String) : Except CalcErr (List CalcTok) :=
  scanLoop (s.length + 1) s.data []

/-- The parse tree standing for the closures `Parser` builds (§9 of the
spec recommends exactly this representation). -/
inductive CalcExpr where
  | num (q : ℚ)
  | varRef (name : String)
  | signed (c : Char) (e : CalcExpr)
  | constRef (name : String) (q : ℚ)
  | call (f : String) (e : CalcExpr)
  | binop (o : String) (l r : CalcExpr)
  deriving DecidableEq, Repr

/-- Value of a constant name in the default calculator. -/
def constVal (s : String) : ℚ :=
  ((constantList.find? fun p => p.1 = s).map Prod.snd).getD 0

/-- `Parser._expect(char)`: consume the token or raise
(`UnexpectedCharacter` on a wrong token, `UnexpectedEnd` when `peek`
raises `StopIteration`). -/
def expectTok (c : String) : List CalcTok → Except CalcErr (List CalcTok)
  | .sym s :: rest => if s = c then .ok rest else .error (.unexpectedCharacter (.sym s))
  | .num q :: _ => .error (.unexpectedCharacter (.num q))
  | [] => .error .unexpectedEnd

/-- The recursive-descent parser.  `prec = 0` is `_parse_factor`;
`prec ≥ 1` with `acc = none` is `_parse_expression(prec)` about to parse
its first operand (the operand parser is `_parse_factor` when
`prec = 1`); `acc = some a` is the operator loop of `evaluate` with the
left-to-right accumulated expression `a`.  Fuel only bounds the
recursion depth; every concrete claim uses enough of it. -/
def parseP : ℕ → ℕ → Option CalcExpr → List CalcTok → List String →
    Except CalcErr (CalcExpr × List CalcTok × List String)
  | 0, _, _, _, _ => .error .outOfFuel
  | fuel + 1, 0, none, toks, vars =>
      match toks with
      | [] => .error .unexpectedEnd
      | .num q :: rest => .ok (.num q, rest, vars)
      | .sym s :: rest =>
          if s ∈ variableNames then
            .ok (.varRef s, rest, if s ∈ vars then vars else vars ++ [s])
          else if s = "+" || s = "-" then
            match parseP fuel 0 none rest vars with
            | .error e => .error e
            | .ok r => .ok (.signed (if s = "+" then '+' else '-') r.1, r.2.1, r.2.2)
          else if s ∈ constantList.map Prod.fst then
            .ok (.constRef s (constVal s), rest, vars)
          else if s ∈ functionNames then
            match expectTok "(" rest with
            | .error e => .error e
            | .ok rest1 =>
                match parseP fuel 8 none rest1 vars with
                | .error e => .error e
                | .ok r =>
                    match expectTok ")" r.2.1 with
                    | .error e => .error e
                    | .ok rest2 => .ok (.call s r.1, rest2, r.2.2)
          else if s = "(" then
            match parseP fuel 8 none rest vars with
            | .error e => .error e
            | .ok r =>
                match expectTok ")" r.2.1 with
                | .error e => .error e
                | .ok rest2 => .ok (r.1, rest2, r.2.2)
          else .error (.unexpectedCharacter (.sym s))
  | fuel + 1, prec + 1, none, toks, vars =>
      match parseP fuel prec none toks vars with
      | .error e => .error e
      | .ok r => parseP fuel (prec + 1) (some r.1) r.2.1 r.2.2
  | fuel + 1, prec, some a, toks, vars =>
      match toks with
      | .sym s :: rest =>
          if s ∈ operatorsLevel prec then
            match parseP fuel (prec - 1) none rest vars with
            | .error e => .error e
            | .ok r => parseP fuel prec (some (.binop s a r.1)) r.2.1 r.2.2
          else .ok (a, toks, vars)
      | _ => .ok (a, toks, vars)

/-- A Python runtime value of the evaluator: a float (exact rational)
or a bool (comparisons return bools, and the bitwise operators accept
only bools — on floats they raise `TypeError`). -/
inductive PyVal where
  | num (q : ℚ)
  | boolv (b : Bool)
  deriving DecidableEq, Repr

/-- Numeric coercion (Python arithmetic treats `True`/`False` as 1/0). -/
def PyVal.toQ : PyVal → ℚ
  | num q => q
  | boolv b => if b then 1 else 0

/-- `op.pow` on floats: integral exponents stay rational; `0 ** n` with
`n < 0` raises `ZeroDivisionError`; a fractional exponent leaves the
rational model (`nonRationalValue`). -/
def qpow (a b : ℚ) : Except CalcErr ℚ :=
  if b.den = 1 then
    if 0 ≤ b.num then .ok (a ^ b.num.toNat)
    else if a = 0 then .error .zeroDivision
    else .ok ((a ^ (-b.num).toNat)⁻¹)
  else .error .nonRationalValue

/-- `op.mod` on floats: Python `%` takes the divisor's sign,
`a - b*⌊a/b⌋`; division by zero raises. -/
def qmod (a b : ℚ) : Except CalcErr ℚ :=
  if b = 0 then .error .zeroDivision else .ok (a - b * (⌊a / b⌋ : ℤ))

/-- One binary operator application (`_evaluate_binary`'s
`flatten(operators)[op]`). -/
def applyOp (o : String) (a b : PyVal) : Except CalcErr PyVal :=
  if o = "**" then (qpow a.toQ b.toQ).map .num
  else if o = "*" then .ok (.num (a.toQ * b.toQ))
  else if o = "/" then
    if b.toQ = 0 then .error .zeroDivision else .ok (.num (a.toQ / b.toQ))
  else if o = "%" then (qmod a.toQ b.toQ).map .num
  else if o = "+" then .ok (.num (a.toQ + b.toQ))
  else if o = "-" then .ok (.num (a.toQ - b.toQ))
  else if o = "<" then .ok (.boolv (decide (a.toQ < b.toQ)))
  else if o = "<=" then .ok (.boolv (decide (a.toQ ≤ b.toQ)))
  else if o = ">" then .ok (.boolv (decide (b.toQ < a.toQ)))
  else if o = ">=" then .ok (.boolv (decide (b.toQ ≤ a.toQ)))
  else if o = "==" then .ok (.boolv (decide (a.toQ = b.toQ)))
  else if o = "!=" then .ok (.boolv (decide (a.toQ ≠ b.toQ)))
  else
    match a, b with
    | .boolv x, .boolv y =>
        if o = "&" then .ok (.boolv (x && y))
        else if o = "^" then .ok (.boolv (xor x y))
        else if o = "|" then .ok (.boolv (x || y))
        else .error .typeErr
    | _, _ => .error .typeErr

/-- One function application.  `np.abs` and `np.floor` are exact on
rationals; the six trigonometric functions produce irrational floats
and leave the model (`nonRationalValue`, unreachable in the claims). -/
def applyFun (f : String) (v : PyVal) : Except CalcErr PyVal :=
  if f = "abs" then .ok (.num |v.toQ|)
  else if f = "floor" then .ok (.num ((⌊v.toQ⌋ : ℤ) : ℚ))
  else .error .nonRationalValue

/-- Evaluation of the parse tree against positional arguments, matching
the closures of `_parse_factor`: a variable reference checks the
argument count against the final free-variable list and indexes it. -/
def evalExpr (vars : List String) (args : List PyVal) :
    CalcExpr → Except CalcErr PyVal
  | .num q => .ok (.num q)
  | .constRef _ q => .ok (.num q)
  | .varRef name =>
      if args.length ≠ vars.length then
        .error (.wrongArgsLen args.length vars.length)
      else .ok (args.getD (vars.indexOf name) (.num 0))
  | .signed c e =>
      match evalExpr vars args e with
      | .error err => .error err
      | .ok v => if c = '+' then .ok v else .ok (.num (-(v.toQ)))
  | .call f e =>
      match evalExpr vars args e with
      | .error err => .error err
      | .ok v => applyFun f v
  | .binop o l r =>
      match evalExpr vars args l with
      | .error err => .error err
      | .ok a =>
          match evalExpr vars args r with
          | .error err => .error err
          | .ok b => applyOp o a b

/-- The value `Calculator.calculate` returns: an immediate value when
the expression has no free variables, the parsed function and its
ordered variables otherwise, or the special-cased identity for the
input `"t"`. -/
inductive CalcResult where
  | value (v : PyVal)
  | func (e : CalcExpr) (vars : List String)
  | tIdentity
  deriving DecidableEq, Repr

/-- `Calculator.calculate(expression)` of the default calculator
(variable expansion for a non-empty variable list is represented
unexpanded as `CalcResult.func`). -/
def calculate (s : String) : Except CalcErr CalcResult :=
  if s = "t" then .ok .tIdentity
  else
    match scan s with
    | .error e => .error e
    | .ok toks =>
        match parseP (10 * toks.length + 10) 8 none toks [] with
        | .error e => .error e
        | .ok (e, _, vars) =>
            if vars.isEmpty then
              match evalExpr vars [] e with
              | .error err => .error err
              | .ok v => .ok (.value v)
            else .ok (.func e vars)

/-- C7: the parser applies every binary operator with left-to-right
associativity — for any operands and any of the fifteen operator tokens,
`a op b op c` parses to `(a op b) op c` — so `calculate("2**3**2")`
yields `(2**3)**2 = 64.0`; and a unary sign binds tighter than
exponentiation, so `calculate("-2**2")` yields `(-2)**2 = 4.0`. -/
theorem expression_assoc_and_sign :
    calculate "2**3**2" = .ok (.value (.num 64)) ∧
      calculate "-2**2" = .ok (.value (.num 4)) ∧
      ∀ (q1 q2 q3 : ℚ) (o : String), o ∈ operatorTokens →
        parseP 99 8 none [.num q1, .sym o, .num q2, .sym o, .num q3] [] =
          .ok (.binop o (.binop o (.num q1) (.num q2)) (.num q3), [], []) := by
  refine ⟨by decide, by decide, fun q1 q2 q3 o ho => ?_⟩
  fin_cases ho <;> rfl

/-- Witness for `expression_assoc_and_sign`: the exponentiation chain
`2 ** 3 ** 2` parses left-nested. -/
theorem expression_assoc_and_sign_witness :
    parseP 99 8 none
        [.num 2, .sym "**", .num 3, .sym "**", .num 2] [] =
      .ok (.binop "**" (.binop "**" (.num 2) (.num 3)) (.num 2), [], []) :=
  expression_assoc_and_sign.2.2 2 3 2 "**" (by decide)

/-- C9: the four error scenarios of the spec — an unsupported character,
a malformed number, an unknown function name, and a missing closing
parenthesis at end of input — raise exactly the claimed exceptions. -/
theorem calculator_error_scenarios :
    calculate "2 + @" = .error (.unexpectedCharacter (.sym "@")) ∧
      calculate "3.3.3" = .error (.badNumber "3.3.3") ∧
      calculate "son(3)" = .error (.badFunction "son") ∧
      calculate "2 + (3 * 4" = .error .unexpectedEnd := by
  refine ⟨by decide, by decide, by decide, by decide⟩

/-! ### The stepping loop of CircuitSolver.solve

`np.linalg.solve` is external LAPACK code; the model takes it as an
oracle `linsolve` returning `none` for `numpy.linalg.LinAlgError`.
Concrete runs instantiate it with `gaussOracle`, an exact Gaussian
elimination over `ℚ` that fails exactly on singular systems. -/

/-- Find the first row with a nonzero leading entry; return it and the
remaining rows. -/
def findPivot : List (List ℚ) → Option (List ℚ × List (List ℚ))
  | [] => none
  | r :: rest =>
      match r with
      | [] => none
      | x :: _ =>
          if x ≠ 0 then some (r, rest)
          else (findPivot rest).map fun pr => (pr.1, r :: pr.2)

/-- Eliminate the leading column of `row` using `pivot` (both rows keep
their trailing augmented entries); the leading entry is dropped. -/
def elimCol (pivot row : List ℚ) : List ℚ :=
  match pivot, row with
  | p0 :: ps, x :: xs => List.zipWith (fun pe xe => xe - x / p0 * pe) ps xs
  | _, _ => []

/-- Forward elimination on augmented rows, one level per unknown;
`none` exactly when some stage has an all-zero leading column
(singular matrix). -/
def gaussTri : ℕ → List (List ℚ) → Option (List (List ℚ))
  | 0, _ => some []
  | m + 1, rows =>
      match findPivot rows with
      | none => none
      | some (p, rest) =>
          (gaussTri m (rest.map (elimCol p))).map fun tri => p :: tri

/-- Back substitution over the reversed triangle. -/
def backSubAux : List (List ℚ) → List ℚ → List ℚ
  | [], sol => sol
  | r :: rest, sol =>
      match r with
      | [] => sol
      | p :: restRow =>
          let rhs := restRow.getLastD 0
          let coeffs := restRow.dropLast
          backSubAux rest (((rhs - (List.zipWith (· * ·) coeffs sol).sum) / p) :: sol)

/-- Exact dense linear solve of `A x = b` (`n × n`), `none` on a
singular matrix. -/
def gaussSolve (n : ℕ) (A : List (List ℚ)) (b : List ℚ) : Option (List ℚ) :=
  (gaussTri n (List.zipWith (fun r x => r ++ [x]) A b)).map fun tri =>
    backSubAux tri.reverse []

/-- The Gaussian oracle on function-matrices. -/
def gaussOracle (n : ℕ) (M : ℕ → ℕ → ℚ) (v : ℕ → ℚ) : Option (ℕ → ℚ) :=
  (gaussSolve n ((List.range n).map fun i => (List.range n).map fun j => M i j)
      ((List.range n).map v)).map
    fun l i => l.getD i 0

/-- The solver's fixed data for one `solve` call: sizes, timestep,
integration scheme, the linear-solve oracle, and the three update
registries populated by assembly. -/
structure SolverCfg where
  n : ℕ
  nb_step : ℕ
  dt : ℚ
  time_integration : TimeIntegration
  linsolve : (ℕ → ℕ → ℚ) → (ℕ → ℚ) → Option (ℕ → ℚ)
  update_source_dict : List (ℕ × (ℚ → ℚ))
  update_M0_dict : List (ℕ × List (ℤ × (ℚ → ℚ)))
  update_M1_dict : List (ℕ × List (ℤ × (ℚ → ℚ)))

/-- The solver's mutable state during `solve`. -/
structure SolverSt where
  M0 : ℕ → ℕ → ℚ
  M1 : ℕ → ℕ → ℚ
  Source : ℕ → ℚ
  LHS : ℕ → ℕ → ℚ
  RHS : ℕ → ℚ
  solution : ℕ → ℕ → ℚ
  update_diode_dict : List (ℕ × DiodeContainer)

/-- `CircuitSolver.update_source`. -/
def update_source (cfg : SolverCfg) (time : ℚ) (st : SolverSt) : SolverSt :=
  { st with Source :=
      cfg.update_source_dict.foldl (fun S e => vsetEntry S e.1 (e.2 time)) st.Source }

/-- `CircuitSolver.update_M0M1`. -/
def update_M0M1 (cfg : SolverCfg) (time : ℚ) (st : SolverSt) : SolverSt :=
  { st with
    M0 := cfg.update_M0_dict.foldl
      (fun M e => e.2.foldl (fun M ce => msetEntry cfg.n M e.1 ce.1 (ce.2 time)) M)
      st.M0,
    M1 := cfg.update_M1_dict.foldl
      (fun M e => e.2.foldl (fun M ce => msetEntry cfg.n M e.1 ce.1 (ce.2 time)) M)
      st.M1 }

/-- `CircuitSolver.build_LHS` through `get_system_builders`. -/
def solver_build_LHS (cfg : SolverCfg) (st : SolverSt) : SolverSt :=
  { st with LHS :=
      match cfg.time_integration with
      | .BDF => build_LHS_BDF st.M1 st.M0 cfg.dt
      | .BDF2 => build_LHS_BDF2 st.M1 st.M0 cfg.dt
      | .BDF3 => build_LHS_BDF3 st.M1 st.M0 cfg.dt }

/-- The solution-history accessor handed to the RHS builders:
`x[:, s]` with Python index semantics over the `nb_step + 1` columns. -/
def colAccessor (cfg : SolverCfg) (sol : ℕ → ℕ → ℚ) : ℤ → ℕ → ℚ :=
  fun s i => sol i (pyIdx (cfg.nb_step + 1) s)

/-- `CircuitSolver.build_RHS` through `get_system_builders`. -/
def solver_build_RHS (cfg : SolverCfg) (st : SolverSt) (step : ℤ) : SolverSt :=
  { st with RHS :=
      match cfg.time_integration with
      | .BDF => build_RHS_BDF cfg.n st.M1 st.Source cfg.dt step
          (colAccessor cfg st.solution)
      | .BDF2 => build_RHS_BDF2 cfg.n st.M1 st.Source cfg.dt step
          (colAccessor cfg st.solution)
      | .BDF3 => build_RHS_BDF3 cfg.n st.M1 st.Source cfg.dt step
          (colAccessor cfg st.solution) }

/-- `solution[:, col] = v`. -/
def setSolCol (st : SolverSt) (col : ℕ) (v : ℕ → ℚ) : SolverSt :=
  { st with solution := fun i j => if j = col then v i else st.solution i j }

/-- `CircuitSolver.update_diode(step)` acting on the solver state: reads
`solution[idx, step + 1]` (Python index semantics on `idx`). -/
def run_update_diode (cfg : SolverCfg) (st : SolverSt) (step : ℤ) : SolverSt × Bool :=
  let r := update_diode cfg.n st.M0
    (fun idx => st.solution (pyIdx cfg.n idx) (step + 1).toNat) st.update_diode_dict
  ({ st with M0 := r.1, update_diode_dict := r.2.1 }, r.2.2)

/-- The loop `for row in self.update_diode_dict: self.set_diode(row,
DIODE_STATE.RESISTOR)` of `recompute_diodes`. -/
def setAllResistor (n : ℕ) (M0 : ℕ → ℕ → ℚ) :
    List (ℕ × DiodeContainer) → (ℕ → ℕ → ℚ) × List (ℕ × DiodeContainer)
  | [] => (M0, [])
  | (row, dc) :: rest =>
      let p := set_diode n M0 row dc .RESISTOR
      let q := setAllResistor n p.1 rest
      (q.1, (row, p.2) :: q.2)

/-- `solution[:, col] = np.linalg.solve(LHS, RHS)` with the
`LinAlgError` surfaced as `error`. -/
def trySolve (cfg : SolverCfg) (st : SolverSt) (col : ℕ) : Except Unit SolverSt :=
  match cfg.linsolve st.LHS st.RHS with
  | none => .error ()
  | some v => .ok (setSolCol st col v)

/-- `CircuitSolver.recompute_diodes(step)`: substitute resistors, solve
the step, and reapply the update rule; a singular substitute system
propagates the `LinAlgError` out of `solve` (`error`). -/
def recompute_diodes (cfg : SolverCfg) (st : SolverSt) (step : ℤ) :
    Except Unit SolverSt :=
  let r := setAllResistor cfg.n st.M0 st.update_diode_dict
  let st1 := { st with M0 := r.1, update_diode_dict := r.2 }
  let st2 := solver_build_LHS cfg st1
  let st3 := solver_build_RHS cfg st2 step
  match trySolve cfg st3 (step + 1).toNat with
  | .error e => .error e
  | .ok st4 => .ok (run_update_diode cfg st4 step).1

/-- Lines 173–175 of `solve`: rebuild `M0`, `M1` and the LHS when some
update dictionary is non-empty. -/
def maybe_update_LHS (cfg : SolverCfg) (t : ℚ) (st : SolverSt) : SolverSt :=
  if !cfg.update_M0_dict.isEmpty || !cfg.update_M1_dict.isEmpty then
    solver_build_LHS cfg (update_M0M1 cfg t st)
  else st

/-- The diode part of a loop iteration (lines 178–185 of `solve`),
entered with `solution[:, s + 1]` freshly written in `st4`: apply the
update rule; on a transition rebuild the LHS and re-solve, falling back
to `recompute_diodes` and a final rebuild-and-solve when the re-solve
is singular. -/
def solveStepAfter (cfg : SolverCfg) (st4 : SolverSt) (s : ℕ) :
    Except Unit SolverSt :=
  let r := run_update_diode cfg st4 (s : ℤ)
  if r.2 then
    let st5 := solver_build_LHS cfg r.1
    match trySolve cfg st5 (s + 1) with
    | .ok stx => .ok stx
    | .error _ =>
        match recompute_diodes cfg st5 (s : ℤ) with
        | .error e => .error e
        | .ok st6 => trySolve cfg (solver_build_LHS cfg st6) (s + 1)
  else .ok r.1

/-- One iteration of the `while step < nb_step` loop of
`CircuitSolver.solve`, at step `s` and accumulated time `t`. -/
def solveStepBody (cfg : SolverCfg) (st : SolverSt) (s : ℕ) (t : ℚ) :
    Except Unit SolverSt :=
  let st1 := update_source cfg t st
  let st2 := maybe_update_LHS cfg t st1
  let st3 := solver_build_RHS cfg st2 (s : ℤ)
  match trySolve cfg st3 (s + 1) with
  | .error e => .error e
  | .ok st4 => solveStepAfter cfg st4 s

/-- The part of `solve` before the loop, starting from the
post-assembly matrices, source and diode dictionary: apply the updates
at `time = 0`, run `recompute_diodes(-1)` when diodes exist, initialise
every solution column with the steady state (zero on a singular `M0`),
and build the LHS. -/
def initState (cfg : SolverCfg) (M0i M1i : ℕ → ℕ → ℚ) (Si : ℕ → ℚ)
    (diodes : List (ℕ × DiodeContainer)) : Except Unit SolverSt :=
  let st0 : SolverSt :=
    ⟨M0i, M1i, Si, fun _ _ => 0, fun _ => 0, fun _ _ => 0, diodes⟩
  let st1 := update_M0M1 cfg 0 st0
  let st2 := update_source cfg 0 st1
  match (if st2.update_diode_dict ≠ [] then recompute_diodes cfg st2 (-1)
      else .ok st2) with
  | .error e => .error e
  | .ok st3 =>
      let st4 :=
        match cfg.linsolve st3.M0 st3.Source with
        | some v => { st3 with solution := fun i _ => v i }
        | none => { st3 with solution := fun _ _ => 0 }
      .ok (solver_build_LHS cfg st4)

/-- The first `s` iterations of the loop (`time` after `k` iterations
is `(k + 1)·dt`; rational accumulation is exact where Python floats
drift, which no claim depends on). -/
def runSteps (cfg : SolverCfg) (st : SolverSt) : ℕ → Except Unit SolverSt
  | 0 => .ok st
  | s + 1 =>
      match runSteps cfg st s with
      | .error e => .error e
      | .ok st' => solveStepBody cfg st' s ((s + 1 : ℕ) * cfg.dt)

/-- The solver state after initialisation and `s` completed loop
iterations — the state in which the RHS of step `s` is built. -/
def stateAfter (cfg : SolverCfg) (M0i M1i : ℕ → ℕ → ℚ) (Si : ℕ → ℚ)
    (diodes : List (ℕ × DiodeContainer)) (s : ℕ) : Except Unit SolverSt :=
  match initState cfg M0i M1i Si diodes with
  | .error e => .error e
  | .ok st => runSteps cfg st s

theorem trySolve_dict (cfg : SolverCfg) (st : SolverSt) (col : ℕ)
    (st' : SolverSt) (h : trySolve cfg st col = .ok st') :
    st'.update_diode_dict = st.update_diode_dict := by
  simp only [trySolve] at h
  split at h
  · exact absurd h (by simp)
  · replace h := Except.ok.inj h
    subst h
    rfl

theorem trySolve_solution (cfg : SolverCfg) (st : SolverSt) (col : ℕ)
    (st' : SolverSt) (h : trySolve cfg st col = .ok st') :
    ∀ i j, j ≠ col → st'.solution i j = st.solution i j := by
  simp only [trySolve] at h
  split at h
  · exact absurd h (by simp)
  · replace h := Except.ok.inj h
    subst h
    intro i j hj
    dsimp only [setSolCol]
    rw [if_neg hj]

theorem maybe_update_LHS_solution (cfg : SolverCfg) (t : ℚ) (st : SolverSt) :
    (maybe_update_LHS cfg t st).solution = st.solution := by
  simp only [maybe_update_LHS]
  split <;> rfl

theorem diodeNewDC_resistor_char (sol : ℤ → ℚ) (a : DiodeContainer)
    (ha : a.state = .RESISTOR) :
    ((diodeNewDC sol a).state = .OPEN ∨ (diodeNewDC sol a).state = .RESISTOR) ∧
      (diodeNewDC sol a).state ≠ .CLOSED ∧
      ((diodeNewDC sol a).state = .OPEN ↔
        ((diodeNewDC sol a).signQ : ℚ) *
          (sol (diodeNewDC sol a).idP0 - sol (diodeNewDC sol a).idP1) > 0) := by
  have hne : a.state ≠ .OPEN := by rw [ha]; intro hh; cases hh
  rw [diodeNewDC, if_neg hne]
  by_cases hc : (a.signQ : ℚ) * (sol a.idP0 - sol a.idP1) > 0
  · rw [if_pos hc]
    refine ⟨Or.inl rfl, ?_, fun _ => hc, fun _ => rfl⟩
    intro hh
    cases hh
  · rw [if_neg hc]
    refine ⟨Or.inr ha, ?_, ?_, ?_⟩
    · rw [ha]
      intro hh
      cases hh
    · intro hh
      rw [ha] at hh
      cases hh
    · intro hgt
      exact absurd hgt hc

theorem setAllResistor_spec (n : ℕ) :
    ∀ (ds : List (ℕ × DiodeContainer)) (M0 : ℕ → ℕ → ℚ),
      (setAllResistor n M0 ds).2 =
        ds.map fun e => (e.1, { e.2 with state := .RESISTOR })
  | [], M0 => rfl
  | (row, dc) :: rest, M0 => by
      simp only [setAllResistor, List.map_cons]
      exact congrArg _ (setAllResistor_spec n rest _)

/-- C4 (amended): whenever `recompute_diodes` completes, every diode is
`Open` or `Resistor` — never `Closed` — and it is `Open` exactly when
`sign·(P0 − P1)` of the smoothed (resistor-substituted) solution at
`step + 1` is strictly positive; a diode with
`sign·(P0 − P1) ≤ 0` stays `Resistor`. -/
theorem recompute_diodes_states (cfg : SolverCfg) (st : SolverSt) (step : ℤ)
    (st' : SolverSt) (h : recompute_diodes cfg st step = .ok st') :
    ∀ i row dc, st'.update_diode_dict.get? i = some (row, dc) →
      (dc.state = .OPEN ∨ dc.state = .RESISTOR) ∧ dc.state ≠ .CLOSED ∧
      (dc.state = .OPEN ↔
        (dc.signQ : ℚ) *
          (st'.solution (pyIdx cfg.n dc.idP0) (step + 1).toNat -
            st'.solution (pyIdx cfg.n dc.idP1) (step + 1).toNat) > 0) := by
  intro i row dc hi
  simp only [recompute_diodes] at h
  split at h
  · exact absurd h (by simp)
  · rename_i st4 heq
    replace h := Except.ok.inj h
    subst h
    have hdict : st4.update_diode_dict =
        (setAllResistor cfg.n st.M0 st.update_diode_dict).2 :=
      trySolve_dict cfg _ _ st4 heq
    dsimp only [run_update_diode] at hi ⊢
    rw [update_diode_get?] at hi
    rw [hdict, setAllResistor_spec, List.get?_map] at hi
    cases hd : st.update_diode_dict.get? i with
    | none => rw [hd] at hi; exact absurd hi (by simp)
    | some e =>
        rw [hd] at hi
        simp only [Option.map_some'] at hi
        replace hi := Option.some.inj hi
        injection hi with h1 h2
        subst h2
        exact ⟨(diodeNewDC_resistor_char _
            ⟨DIODE_STATE.RESISTOR, e.2.idP0, e.2.idP1, e.2.idQ, e.2.signQ⟩ rfl).1,
          (diodeNewDC_resistor_char _
            ⟨DIODE_STATE.RESISTOR, e.2.idP0, e.2.idP1, e.2.idQ, e.2.signQ⟩ rfl).2.1,
          (diodeNewDC_resistor_char _
            ⟨DIODE_STATE.RESISTOR, e.2.idP0, e.2.idP1, e.2.idQ, e.2.signQ⟩ rfl).2.2⟩

/-- Configuration of the fallback counterexample run: three unknowns
`[P0, P1, Q]`, one step, `dt = 1`, BDF, exact linear solves, and one
active pressure source whose row-2 value is `1 − 2t` (so the flow
demand flips sign between `t = 0` and `t = 1`). -/
def ceCfg : SolverCfg :=
  ⟨3, 1, 1, .BDF, gaussOracle 3, [(2, fun t => 1 - 2 * t)], [], []⟩

/-- Post-assembly `M0`: row 0 the diode stamp of `build_diode`
(`[1, -1, 0]`), row 1 pins `P0`, row 2 pins `Q`. -/
def ceM0 : ℕ → ℕ → ℚ := fun i j =>
  if i = 0 then (if j = 0 then 1 else if j = 1 then -1 else 0)
  else if i = 1 then (if j = 0 then 1 else 0)
  else if i = 2 then (if j = 2 then 1 else 0)
  else 0

/-- Post-assembly source: `P0 = 1`; the active row 2 is filled by
`update_source`. -/
def ceS : ℕ → ℚ := fun i => if i = 1 then 1 else 0

/-- One diode on row 0 between nodes 0 and 1 carrying flow unknown 2,
as `build_diode` registers it (`signQ = 1` since `idP0` is the edge
start). -/
def ceDiodes : List (ℕ × DiodeContainer) := [(0, ⟨.OPEN, 0, 1, 2, 1⟩)]

/-- The state after one loop step of the counterexample run. -/
def ceSolverSt : SolverSt :=
  match stateAfter ceCfg ceM0 (fun _ _ => 0) ceS ceDiodes 1 with
  | .ok st => st
  | .error _ => ⟨fun _ _ => 0, fun _ _ => 0, fun _ => 0, fun _ _ => 0, fun _ => 0,
      fun _ _ => 0, []⟩

/-- Counterexample to C4 as stated.  In this run the diode opens during
initialisation, step 0 then drives `sign·Q = −1 < 0`, the diode closes,
the closed system (rows `[0,0,1]`, `[1,0,0]`, `[0,0,1]`) is singular —
third conjunct — so the resistor fallback runs; the smoothed solution
gives `sign·(P0 − P1) = −1/10 ≤ 0`, and the run completes with the
diode still in the `Resistor` state, which is neither `Open` nor
`Closed`. -/
theorem diode_fallback_counterexample :
    stateAfter ceCfg ceM0 (fun _ _ => 0) ceS ceDiodes 1 = .ok ceSolverSt ∧
      ceSolverSt.update_diode_dict = [(0, ⟨.RESISTOR, 0, 1, 2, 1⟩)] ∧
      gaussSolve 3 [[0, 0, 1], [1, 0, 0], [0, 0, 1]] [0, 1, -1] = none ∧
      DIODE_STATE.RESISTOR ≠ .OPEN ∧ DIODE_STATE.RESISTOR ≠ .CLOSED :=
  ⟨by with_unfolding_all rfl, by with_unfolding_all decide,
    by with_unfolding_all decide, by decide, by decide⟩

/-- A solver state entering the fallback: the diode of `ceCfg` has just
closed, the source vector is the step-0 one. -/
def wRecSt : SolverSt :=
  ⟨fun i j =>
      if i = 0 then (if j = 2 then 1 else 0)
      else if i = 1 then (if j = 0 then 1 else 0)
      else if i = 2 then (if j = 2 then 1 else 0)
      else 0,
    fun _ _ => 0,
    fun i => if i = 1 then 1 else if i = 2 then -1 else 0,
    fun _ _ => 0, fun _ => 0, fun _ _ => 0,
    [(0, ⟨.CLOSED, 0, 1, 2, 1⟩)]⟩

/-- Result of the fallback from `wRecSt`. -/
def wRecRes : SolverSt :=
  match recompute_diodes ceCfg wRecSt 0 with
  | .ok st => st
  | .error _ => wRecSt

/-- Witness for `recompute_diodes_states` on the concrete fallback run
from `wRecSt`: the surviving diode is open or resistor. -/
theorem recompute_diodes_states_witness :
    recompute_diodes ceCfg wRecSt 0 = .ok wRecRes ∧
      ((⟨DIODE_STATE.RESISTOR, 0, 1, 2, 1⟩ : DiodeContainer).state = .OPEN ∨
        (⟨DIODE_STATE.RESISTOR, 0, 1, 2, 1⟩ : DiodeContainer).state = .RESISTOR) := by
  have hok : recompute_diodes ceCfg wRecSt 0 = .ok wRecRes := by
    with_unfolding_all rfl
  refine ⟨hok, ?_⟩
  exact (recompute_diodes_states ceCfg wRecSt 0 wRecRes hok 0 0
    ⟨DIODE_STATE.RESISTOR, 0, 1, 2, 1⟩ (by with_unfolding_all decide)).1

theorem pyIdx_neg (N a : ℕ) (h1 : 1 ≤ a) (h2 : a ≤ N) :
    pyIdx N (-(a : ℤ)) = N - a := by
  simp only [pyIdx]
  have he : (-(a : ℤ)) % (N : ℤ) = (N : ℤ) - a := by
    have h3 : (-(a : ℤ)) = ((N : ℤ) - a) + (N : ℤ) * (-1) := by ring
    rw [h3, Int.add_mul_emod_self_left, Int.emod_eq_of_lt (by omega) (by omega)]
  rw [he]
  omega

theorem initState_cols (cfg : SolverCfg) (M0i M1i : ℕ → ℕ → ℚ) (Si : ℕ → ℚ)
    (diodes : List (ℕ × DiodeContainer)) (st : SolverSt)
    (h : initState cfg M0i M1i Si diodes = .ok st) :
    ∀ i j, st.solution i j = st.solution i 0 := by
  simp only [initState] at h
  split at h
  · exact absurd h (by simp)
  · replace h := Except.ok.inj h
    subst h
    intro i j
    dsimp only [solver_build_LHS]
    split <;> rfl

theorem recompute_diodes_solution (cfg : SolverCfg) (st : SolverSt) (step : ℤ)
    (st' : SolverSt) (h : recompute_diodes cfg st step = .ok st') :
    ∀ i j, j ≠ (step + 1).toNat → st'.solution i j = st.solution i j := by
  simp only [recompute_diodes] at h
  split at h
  · exact absurd h (by simp)
  · rename_i st4 heq
    replace h := Except.ok.inj h
    subst h
    intro i j hj
    dsimp only [run_update_diode]
    rw [trySolve_solution cfg _ _ st4 heq i j hj]
    dsimp only [solver_build_RHS, solver_build_LHS]

theorem solveStepAfter_solution (cfg : SolverCfg) (st4 : SolverSt) (s : ℕ)
    (st' : SolverSt) (h : solveStepAfter cfg st4 s = .ok st') :
    ∀ i j, j ≠ s + 1 → st'.solution i j = st4.solution i j := by
  simp only [solveStepAfter] at h
  split at h
  · split at h
    · rename_i stx heq
      replace h := Except.ok.inj h
      subst h
      intro i j hj
      rw [trySolve_solution cfg _ _ stx heq i j hj]
      dsimp only [solver_build_LHS, run_update_diode]
    · split at h
      · exact absurd h (by simp)
      · rename_i st6 hrec
        intro i j hj
        rw [trySolve_solution cfg _ _ st' h i j hj]
        dsimp only [solver_build_LHS]
        rw [recompute_diodes_solution cfg _ (s : ℤ) st6 hrec i j (by omega)]
        dsimp only [solver_build_LHS, run_update_diode]
  · replace h := Except.ok.inj h
    subst h
    intro i j hj
    dsimp only [run_update_diode]

theorem solveStepBody_solution (cfg : SolverCfg) (st : SolverSt) (s : ℕ) (t : ℚ)
    (st' : SolverSt) (h : solveStepBody cfg st s t = .ok st') :
    ∀ i j, j ≠ s + 1 → st'.solution i j = st.solution i j := by
  simp only [solveStepBody] at h
  split at h
  · exact absurd h (by simp)
  · rename_i st4 heq
    intro i j hj
    rw [solveStepAfter_solution cfg st4 s st' h i j hj,
      trySolve_solution cfg _ _ st4 heq i j hj]
    dsimp only [solver_build_RHS]
    rw [maybe_update_LHS_solution]
    dsimp only [update_source]

theorem runSteps_cols (cfg : SolverCfg) :
    ∀ (s : ℕ) (st st' : SolverSt), runSteps cfg st s = .ok st' →
      ∀ i j, j = 0 ∨ s < j → st'.solution i j = st.solution i j
  | 0, st, st', h => by
      simp only [runSteps] at h
      replace h := Except.ok.inj h
      subst h
      exact fun i j _ => rfl
  | s + 1, st, st', h => by
      simp only [runSteps] at h
      split at h
      · exact absurd h (by simp)
      · intro i j hj
        rw [solveStepBody_solution cfg _ s _ st' h i j (by omega),
          runSteps_cols cfg s st _ (by assumption) i j (by omega)]

/-- C5: in every solve run, at the steps lacking history — BDF2 at
`step = 0` and BDF3 at `step ∈ {0, 1}` — the negatively indexed history
columns `x[:, step−1]` and `x[:, step−2]` used by the RHS builders (via
Python wrap-around, columns `nb_step` and `nb_step − 1`) hold exactly
the initial state `x[:, 0]`.  The theorem covers every integration
scheme, every post-assembly system, every oracle, and both
initialisation branches. -/
theorem bdf_missing_history (cfg : SolverCfg) (M0i M1i : ℕ → ℕ → ℚ)
    (Si : ℕ → ℚ) (diodes : List (ℕ × DiodeContainer)) (s : ℕ) (st : SolverSt)
    (hs : s < cfg.nb_step) (hs1 : s ≤ 1)
    (h : stateAfter cfg M0i M1i Si diodes s = .ok st) :
    ∀ k : ℤ, (k = (s : ℤ) - 1 ∨ k = (s : ℤ) - 2) → k < 0 →
      ∀ i, st.solution i (pyIdx (cfg.nb_step + 1) k) = st.solution i 0 := by
  simp only [stateAfter] at h
  split at h
  · exact absurd h (by simp)
  · intro k hk hkneg i
    have hN : 1 ≤ cfg.nb_step := by omega
    have hka : ∃ a : ℕ, 1 ≤ a ∧ a ≤ 2 ∧ k = -(a : ℤ) := by
      rcases hk with hk | hk <;> refine ⟨(-k).toNat, by omega, by omega, by omega⟩
    obtain ⟨a, ha1, ha2, hka⟩ := hka
    rw [hka, pyIdx_neg (cfg.nb_step + 1) a ha1 (by omega)]
    set j := cfg.nb_step + 1 - a with hj
    have hcase : j = 0 ∨ s < j := by
      rcases hk with hk | hk <;> omega
    have h0 := initState_cols cfg M0i M1i Si diodes _ (by assumption)
    rw [runSteps_cols cfg s _ st h i j hcase, h0 i j, ← h0 i 0,
      ← runSteps_cols cfg s _ st h i 0 (Or.inl rfl)]

/-- A one-unknown, two-step BDF2 run used to witness the missing-history
substitution. -/
def wHistCfg : SolverCfg := ⟨1, 2, 1, .BDF2, gaussOracle 1, [], [], []⟩

/-- The state of the witness run just before step 0 builds its RHS. -/
def wHistSt : SolverSt :=
  match stateAfter wHistCfg (fun _ _ => 1) (fun _ _ => 0) (fun _ => 1) [] 0 with
  | .ok st => st
  | .error _ => ⟨fun _ _ => 0, fun _ _ => 0, fun _ => 0, fun _ _ => 0, fun _ => 0,
      fun _ _ => 0, []⟩

/-- Witness for `bdf_missing_history`: in the concrete BDF2 run, at
step 0 the wrapped-around history column `x[:, -1]` equals the initial
column `x[:, 0]`. -/
theorem bdf_missing_history_witness :
    stateAfter wHistCfg (fun _ _ => 1) (fun _ _ => 0) (fun _ => 1) [] 0 =
        .ok wHistSt ∧
      wHistSt.solution 0 (pyIdx (wHistCfg.nb_step + 1) (-1)) =
        wHistSt.solution 0 0 := by
  have hok : stateAfter wHistCfg (fun _ _ => 1) (fun _ _ => 0) (fun _ => 1) [] 0 =
      .ok wHistSt := by with_unfolding_all rfl
  exact ⟨hok, bdf_missing_history wHistCfg (fun _ _ => 1) (fun _ _ => 0)
    (fun _ => 1) [] 0 wHistSt (by decide) (by decide) hok (-1)
    (Or.inl (by decide)) (by decide) 0⟩

/-! ### Source-node elimination (CircuitSolver.delete_node_sources) -/

/-- The loop `for i, node in enumerate(nodes): if node.type ==
GraphNodeType.SOURCE: rem.append(i)` of `delete_node_sources`, with the
running enumeration index made explicit. -/
def sourceIdxFrom : ℕ → List GraphNode → List ℕ
  | _, [] => []
  | i, n :: ns =>
      if n.type = GraphNodeType.SOURCE then i :: sourceIdxFrom (i + 1) ns
      else sourceIdxFrom (i + 1) ns

/-- The `rem` list of `delete_node_sources` before its reversal. -/
def sourceIdx (ns : List GraphNode) : List ℕ := sourceIdxFrom 0 ns

/-- The endpoint rewrite applied for one removed node index `i`: an
endpoint equal to `i` becomes `-1`, larger endpoints shift down by one
(the `> i` test runs after the `== i` one, and `-1 > i` is false, so a
freshly deleted endpoint is not shifted). -/
def adjIdx (i : ℕ) (v : ℤ) : ℤ :=
  if v = (i : ℤ) then -1 else if (i : ℤ) < v then v - 1 else v

/-- The endpoint rewrites of the whole removal loop, applied in loop
order (largest removed index first). -/
def applyDels : List ℕ → ℤ → ℤ
  | [], v => v
  | i :: rest, v => applyDels rest (adjIdx i v)

/-- `del nodes[i]` iterated over the removal list (descending order, so
each index still denotes the original node). -/
def eraseIdxs : List ℕ → List GraphNode → List GraphNode
  | [], ns => ns
  | i :: rest, ns => eraseIdxs rest (ns.eraseIdx i)

/-- `CircuitSolver.delete_node_sources` (textually identical to
`CircuitGraph.delete_node_sources`): collect the indices of the
`SOURCE` nodes, then — walking them in descending order — delete each
node and rewrite every edge of every path and every start/end pair.
Each edge occurrence is rewritten once per removal pass, as in the
source, where the retained paths hold distinct edge objects. -/
def delete_node_sources (nodes : List GraphNode)
    (paths : List (List GraphEdge)) (startends : List (ℤ × ℤ)) :
    List GraphNode × List (List GraphEdge) × List (ℤ × ℤ) :=
  (eraseIdxs (sourceIdx nodes).reverse nodes,
   paths.map fun p => p.map fun e =>
     { e with start := applyDels (sourceIdx nodes).reverse e.start,
              endn := applyDels (sourceIdx nodes).reverse e.endn },
   startends.map fun se => (applyDels (sourceIdx nodes).reverse se.1,
     applyDels (sourceIdx nodes).reverse se.2))

/-- Does the endpoint `v` point at a `SOURCE` node of `ns`? -/
def isSourceAt (ns : List GraphNode) (v : ℤ) : Bool :=
  match ns.get? v.toNat with
  | some n => decide (n.type = GraphNodeType.SOURCE)
  | none => false

theorem applyDels_neg : ∀ (rem : List ℕ) (v : ℤ), v < 0 → applyDels rem v = v
  | [], _, _ => rfl
  | i :: rest, v, hv => by
      have h1 : adjIdx i v = v := by
        unfold adjIdx
        rw [if_neg (by omega), if_neg (by omega)]
      rw [applyDels, h1]
      exact applyDels_neg rest v hv

theorem applyDels_mem : ∀ (rem : List ℕ), rem.Pairwise (· > ·) →
    ∀ v : ℕ, v ∈ rem → applyDels rem (v : ℤ) = -1
  | [], _, v, hv => absurd hv (List.not_mem_nil v)
  | i :: rest, hpw, v, hv => by
      rw [List.pairwise_cons] at hpw
      rcases List.mem_cons.mp hv with h | h
      · subst h
        have h1 : adjIdx v (v : ℤ) = -1 := by
          unfold adjIdx
          rw [if_pos rfl]
        rw [applyDels, h1]
        exact applyDels_neg rest (-1) (by omega)
      · have hlt : v < i := hpw.1 v h
        have h1 : adjIdx i (v : ℤ) = (v : ℤ) := by
          unfold adjIdx
          rw [if_neg (by omega), if_neg (by omega)]
        rw [applyDels, h1]
        exact applyDels_mem rest hpw.2 v h

theorem applyDels_not_mem : ∀ (rem : List ℕ), rem.Pairwise (· > ·) →
    ∀ (N v : ℕ), (∀ r ∈ rem, r < N) → v < N → v ∉ rem →
      0 ≤ applyDels rem (v : ℤ) ∧
        applyDels rem (v : ℤ) < (N : ℤ) - rem.length
  | [], _, N, v, _, hvN, _ => by
      simp only [applyDels, List.length_nil]
      omega
  | i :: rest, hpw, N, v, hbN, hvN, hnm => by
      rw [List.pairwise_cons] at hpw
      have hiN : i < N := hbN i (List.mem_cons_self i rest)
      have hvne : v ≠ i := fun h => hnm (h ▸ List.mem_cons_self i rest)
      by_cases hvi : v < i
      · have h1 : adjIdx i (v : ℤ) = (v : ℤ) := by
          unfold adjIdx
          rw [if_neg (by omega), if_neg (by omega)]
        rw [applyDels, h1]
        have ih := applyDels_not_mem rest hpw.2 i v (fun r hr => hpw.1 r hr) hvi
          (fun h => hnm (List.mem_cons_of_mem i h))
        simp only [List.length_cons]
        omega
      · have hvi' : i < v := by omega
        have h1 : adjIdx i (v : ℤ) = ((v - 1 : ℕ) : ℤ) := by
          unfold adjIdx
          rw [if_neg (by omega), if_pos (by omega)]
          omega
        rw [applyDels, h1]
        have ih := applyDels_not_mem rest hpw.2 (N - 1) (v - 1)
          (fun r hr => by have := hpw.1 r hr; omega)
          (by omega)
          (fun h => by have := hpw.1 _ h; omega)
        simp only [List.length_cons]
        omega

theorem sourceIdxFrom_bound : ∀ (ns : List GraphNode) (i j : ℕ),
    j ∈ sourceIdxFrom i ns → i ≤ j ∧ j < i + ns.length
  | [], _, j, h => absurd h (List.not_mem_nil j)
  | n :: ns, i, j, h => by
      simp only [sourceIdxFrom] at h
      by_cases hs : n.type = GraphNodeType.SOURCE
      · rw [if_pos hs] at h
        rcases List.mem_cons.mp h with h | h
        · subst h
          simp only [List.length_cons]
          omega
        · have := sourceIdxFrom_bound ns (i + 1) j h
          simp only [List.length_cons]
          omega
      · rw [if_neg hs] at h
        have := sourceIdxFrom_bound ns (i + 1) j h
        simp only [List.length_cons]
        omega

theorem sourceIdxFrom_pairwise : ∀ (ns : List GraphNode) (i : ℕ),
    (sourceIdxFrom i ns).Pairwise (· < ·)
  | [], _ => List.Pairwise.nil
  | n :: ns, i => by
      simp only [sourceIdxFrom]
      by_cases hs : n.type = GraphNodeType.SOURCE
      · rw [if_pos hs]
        exact List.Pairwise.cons
          (fun j hj => by have := sourceIdxFrom_bound ns (i + 1) j hj; omega)
          (sourceIdxFrom_pairwise ns (i + 1))
      · rw [if_neg hs]
        exact sourceIdxFrom_pairwise ns (i + 1)

theorem sourceIdxFrom_char : ∀ (ns : List GraphNode) (i j : ℕ),
    j ∈ sourceIdxFrom i ns ↔
      (i ≤ j ∧ ∃ n, ns.get? (j - i) = some n ∧ n.type = GraphNodeType.SOURCE)
  | [], i, j => by simp [sourceIdxFrom]
  | n :: ns, i, j => by
      simp only [sourceIdxFrom]
      by_cases hs : n.type = GraphNodeType.SOURCE
      · rw [if_pos hs]
        by_cases hji : j = i
        · subst hji
          simp only [List.mem_cons]
          constructor
          · intro _
            exact ⟨le_refl j, n, by rw [Nat.sub_self]; rfl, hs⟩
          · intro _
            exact Or.inl trivial
        · rw [List.mem_cons, sourceIdxFrom_char ns (i + 1) j]
          constructor
          · rintro (h | ⟨h1, n', hg, hsn⟩)
            · exact absurd h hji
            · refine ⟨by omega, n', ?_, hsn⟩
              have hsub : j - i = (j - (i + 1)) + 1 := by omega
              rw [hsub, List.get?_cons_succ]
              exact hg
          · rintro ⟨h1, n', hg, hsn⟩
            right
            refine ⟨by omega, n', ?_, hsn⟩
            have hsub : j - i = (j - (i + 1)) + 1 := by omega
            rw [hsub, List.get?_cons_succ] at hg
            exact hg
      · rw [if_neg hs, sourceIdxFrom_char ns (i + 1) j]
        constructor
        · rintro ⟨h1, n', hg, hsn⟩
          refine ⟨by omega, n', ?_, hsn⟩
          have hsub : j - i = (j - (i + 1)) + 1 := by omega
          rw [hsub, List.get?_cons_succ]
          exact hg
        · rintro ⟨h1, n', hg, hsn⟩
          by_cases hji : j = i
          · subst hji
            rw [Nat.sub_self, List.get?_cons_zero] at hg
            injection hg with hg
            subst hg
            exact absurd hsn hs
          · refine ⟨by omega, n', ?_, hsn⟩
            have hsub : j - i = (j - (i + 1)) + 1 := by omega
            rw [hsub, List.get?_cons_succ] at hg
            exact hg

theorem isSourceAt_iff (ns : List GraphNode) (v : ℤ) :
    isSourceAt ns v = true ↔ v.toNat ∈ sourceIdx ns := by
  rw [sourceIdx, sourceIdxFrom_char ns 0 v.toNat]
  simp only [Nat.zero_le, Nat.sub_zero, true_and]
  unfold isSourceAt
  cases hg : ns.get? v.toNat with
  | none =>
      constructor
      · intro h
        simp at h
      · rintro ⟨n', hn', _⟩
        exact absurd hn' (by simp)
  | some n =>
      constructor
      · intro h
        refine ⟨n, rfl, ?_⟩
        simpa using h
      · rintro ⟨n', hn', hsn⟩
        injection hn' with hn'
        subst hn'
        simpa using hsn

theorem eraseIdxs_append : ∀ (a b : List ℕ) (ns : List GraphNode),
    eraseIdxs (a ++ b) ns = eraseIdxs b (eraseIdxs a ns)
  | [], _, _ => rfl
  | i :: a, b, ns => by
      simp only [List.cons_append, eraseIdxs]
      exact eraseIdxs_append a b (ns.eraseIdx i)

theorem eraseIdxs_map_succ : ∀ (l : List ℕ) (n : GraphNode) (t : List GraphNode),
    eraseIdxs (l.map (· + 1)) (n :: t) = n :: eraseIdxs l t
  | [], _, _ => rfl
  | i :: l, n, t => by
      simp only [List.map_cons, eraseIdxs, List.eraseIdx_cons_succ]
      exact eraseIdxs_map_succ l n (t.eraseIdx i)

theorem sourceIdxFrom_succ : ∀ (ns : List GraphNode) (i : ℕ),
    sourceIdxFrom (i + 1) ns = (sourceIdxFrom i ns).map (· + 1)
  | [], _ => rfl
  | n :: ns, i => by
      simp only [sourceIdxFrom]
      by_cases hs : n.type = GraphNodeType.SOURCE
      · rw [if_pos hs, if_pos hs, List.map_cons, sourceIdxFrom_succ ns (i + 1)]
      · rw [if_neg hs, if_neg hs, sourceIdxFrom_succ ns (i + 1)]

theorem eraseIdxs_sourceIdx : ∀ ns : List GraphNode,
    eraseIdxs (sourceIdx ns).reverse ns =
      ns.filter fun n => !decide (n.type = GraphNodeType.SOURCE)
  | [] => rfl
  | n :: ns => by
      have h1 : sourceIdxFrom 1 ns = (sourceIdxFrom 0 ns).map (· + 1) :=
        sourceIdxFrom_succ ns 0
      by_cases hs : n.type = GraphNodeType.SOURCE
      · have h0 : sourceIdx (n :: ns) = 0 :: (sourceIdxFrom 0 ns).map (· + 1) := by
          rw [sourceIdx, sourceIdxFrom, if_pos hs]
          rw [show sourceIdxFrom (0 + 1) ns = sourceIdxFrom 1 ns from rfl, h1]
        have hfil : (n :: ns).filter (fun m => !decide (m.type = GraphNodeType.SOURCE)) =
            ns.filter fun m => !decide (m.type = GraphNodeType.SOURCE) := by
          simp [List.filter_cons, hs]
        rw [hfil, h0, List.reverse_cons, ← List.map_reverse, eraseIdxs_append,
          eraseIdxs_map_succ]
        have h2 : eraseIdxs [0]
            (n :: eraseIdxs (sourceIdxFrom 0 ns).reverse ns) =
            eraseIdxs (sourceIdxFrom 0 ns).reverse ns := rfl
        rw [h2]
        exact eraseIdxs_sourceIdx ns
      · have h0 : sourceIdx (n :: ns) = (sourceIdxFrom 0 ns).map (· + 1) := by
          rw [sourceIdx, sourceIdxFrom, if_neg hs]
          rw [show sourceIdxFrom (0 + 1) ns = sourceIdxFrom 1 ns from rfl, h1]
        have hfil : (n :: ns).filter (fun m => !decide (m.type = GraphNodeType.SOURCE)) =
            n :: ns.filter fun m => !decide (m.type = GraphNodeType.SOURCE) := by
          simp [List.filter_cons, hs]
        rw [hfil, h0, ← List.map_reverse, eraseIdxs_map_succ]
        have hrec : eraseIdxs (sourceIdxFrom 0 ns).reverse ns =
            ns.filter fun m => !decide (m.type = GraphNodeType.SOURCE) :=
          eraseIdxs_sourceIdx ns
        rw [hrec]

theorem sourceIdxFrom_length : ∀ (ns : List GraphNode) (i : ℕ),
    (sourceIdxFrom i ns).length +
      (ns.filter fun n => !decide (n.type = GraphNodeType.SOURCE)).length =
      ns.length
  | [], _ => rfl
  | n :: ns, i => by
      by_cases hs : n.type = GraphNodeType.SOURCE
      · have h0 : sourceIdxFrom i (n :: ns) = i :: sourceIdxFrom (i + 1) ns := by
          rw [sourceIdxFrom, if_pos hs]
        have hfil : (n :: ns).filter (fun m => !decide (m.type = GraphNodeType.SOURCE)) =
            ns.filter fun m => !decide (m.type = GraphNodeType.SOURCE) := by
          simp [List.filter_cons, hs]
        rw [h0, hfil]
        have := sourceIdxFrom_length ns (i + 1)
        simp only [List.length_cons]
        omega
      · have h0 : sourceIdxFrom i (n :: ns) = sourceIdxFrom (i + 1) ns := by
          rw [sourceIdxFrom, if_neg hs]
        have hfil : (n :: ns).filter (fun m => !decide (m.type = GraphNodeType.SOURCE)) =
            n :: ns.filter fun m => !decide (m.type = GraphNodeType.SOURCE) := by
          simp [List.filter_cons, hs]
        rw [h0, hfil]
        have := sourceIdxFrom_length ns (i + 1)
        simp only [List.length_cons]
        omega

/-- C8: after source-node elimination, no surviving node has type
`SOURCE`; every ground-like edge (Ground, PSource, QSource) of the
retained paths keeps exactly one endpoint — the other becomes `-1` —
and every other edge keeps both endpoints in the new valid index range.
The hypotheses state the shape `convert_circuit_to_graph` establishes:
all endpoints are in range, a ground-like edge touches exactly one
`SOURCE` node, and a non-ground-like edge touches none. -/
theorem source_elimination (nodes : List GraphNode)
    (paths : List (List GraphEdge)) (startends : List (ℤ × ℤ))
    (hG : ∀ p ∈ paths, ∀ e ∈ p, e.elem.kind.groundLike = true →
      0 ≤ e.start ∧ e.start < (nodes.length : ℤ) ∧
      0 ≤ e.endn ∧ e.endn < (nodes.length : ℤ) ∧
      isSourceAt nodes e.start ≠ isSourceAt nodes e.endn)
    (hD : ∀ p ∈ paths, ∀ e ∈ p, e.elem.kind.groundLike = false →
      0 ≤ e.start ∧ e.start < (nodes.length : ℤ) ∧
      0 ≤ e.endn ∧ e.endn < (nodes.length : ℤ) ∧
      isSourceAt nodes e.start = false ∧ isSourceAt nodes e.endn = false) :
    (∀ nd ∈ (delete_node_sources nodes paths startends).1,
      nd.type ≠ GraphNodeType.SOURCE) ∧
    (∀ p ∈ (delete_node_sources nodes paths startends).2.1, ∀ e ∈ p,
      (e.elem.kind.groundLike = true →
        (e.start = -1 ∧ 0 ≤ e.endn ∧
          e.endn < ((delete_node_sources nodes paths startends).1.length : ℤ)) ∨
        (e.endn = -1 ∧ 0 ≤ e.start ∧
          e.start < ((delete_node_sources nodes paths startends).1.length : ℤ))) ∧
      (e.elem.kind.groundLike = false →
        0 ≤ e.start ∧
        e.start < ((delete_node_sources nodes paths startends).1.length : ℤ) ∧
        0 ≤ e.endn ∧
        e.endn < ((delete_node_sources nodes paths startends).1.length : ℤ))) := by
  have hrempw : ((sourceIdx nodes).reverse).Pairwise (· > ·) := by
    rw [List.pairwise_reverse]
    exact sourceIdxFrom_pairwise nodes 0
  have hremN : ∀ r ∈ (sourceIdx nodes).reverse, r < nodes.length := by
    intro r hr
    rw [List.mem_reverse] at hr
    have := sourceIdxFrom_bound nodes 0 r hr
    omega
  have hsplit : (sourceIdx nodes).length +
      (nodes.filter fun n => !decide (n.type = GraphNodeType.SOURCE)).length =
      nodes.length := sourceIdxFrom_length nodes 0
  have hrevlen : ((sourceIdx nodes).reverse).length = (sourceIdx nodes).length :=
    List.length_reverse _
  have hNewLen : ((delete_node_sources nodes paths startends).1.length : ℤ) =
      (nodes.length : ℤ) - ((sourceIdx nodes).reverse).length := by
    have h1 : (delete_node_sources nodes paths startends).1 =
        nodes.filter fun n => !decide (n.type = GraphNodeType.SOURCE) :=
      eraseIdxs_sourceIdx nodes
    rw [h1]
    omega
  constructor
  · intro nd hnd
    have h1 : nd ∈ nodes.filter fun n => !decide (n.type = GraphNodeType.SOURCE) := by
      have h2 : (delete_node_sources nodes paths startends).1 =
          nodes.filter fun n => !decide (n.type = GraphNodeType.SOURCE) :=
        eraseIdxs_sourceIdx nodes
      rw [← h2]
      exact hnd
    have h3 := List.of_mem_filter h1
    simpa using h3
  · intro p hp e he
    dsimp only [delete_node_sources] at hp
    rcases List.mem_map.mp hp with ⟨p0, hp0, rfl⟩
    rcases List.mem_map.mp he with ⟨e0, he0, rfl⟩
    have hms : ∀ v : ℤ, 0 ≤ v → isSourceAt nodes v = true →
        applyDels (sourceIdx nodes).reverse v = -1 := by
      intro v hv hsv
      have hmem := (isSourceAt_iff nodes v).mp hsv
      have := applyDels_mem _ hrempw _ (List.mem_reverse.mpr hmem)
      rwa [Int.toNat_of_nonneg hv] at this
    have hmn : ∀ v : ℤ, 0 ≤ v → v < (nodes.length : ℤ) →
        isSourceAt nodes v = false →
        0 ≤ applyDels (sourceIdx nodes).reverse v ∧
          applyDels (sourceIdx nodes).reverse v <
            ((delete_node_sources nodes paths startends).1.length : ℤ) := by
      intro v hv hvN hsv
      have hnm : v.toNat ∉ (sourceIdx nodes).reverse := by
        intro hmm
        rw [List.mem_reverse] at hmm
        rw [(isSourceAt_iff nodes v).mpr hmm] at hsv
        cases hsv
      have hb := applyDels_not_mem _ hrempw nodes.length v.toNat hremN
        (by omega) hnm
      rw [Int.toNat_of_nonneg hv] at hb
      rw [hNewLen]
      exact hb
    constructor
    · intro hge
      obtain ⟨hs0, hsN, he0', heN, hxor⟩ := hG p0 hp0 e0 he0 hge
      cases hss : isSourceAt nodes e0.start with
      | true =>
          have hse : isSourceAt nodes e0.endn = false := by
            cases hee : isSourceAt nodes e0.endn
            · rfl
            · exact absurd (hss.trans hee.symm) hxor
          exact Or.inl ⟨hms e0.start hs0 hss,
            (hmn e0.endn he0' heN hse).1, (hmn e0.endn he0' heN hse).2⟩
      | false =>
          have hse : isSourceAt nodes e0.endn = true := by
            cases hee : isSourceAt nodes e0.endn
            · exact absurd (hss.trans hee.symm) hxor
            · rfl
          exact Or.inr ⟨hms e0.endn he0' hse,
            (hmn e0.start hs0 hsN hss).1, (hmn e0.start hs0 hsN hss).2⟩
    · intro hde
      obtain ⟨hs0, hsN, he0', heN, hfs, hfe⟩ := hD p0 hp0 e0 he0 hde
      exact ⟨(hmn e0.start hs0 hsN hfs).1, (hmn e0.start hs0 hsN hfs).2,
        (hmn e0.endn he0' heN hfe).1, (hmn e0.endn he0' heN hfe).2⟩

/-- Nodes of the witness circuit: node 0 a dipole, node 1 the source
node a ground element creates. -/
def wNodes8 : List GraphNode :=
  [⟨GraphNodeType.DIPOLE, false, ""⟩, ⟨GraphNodeType.SOURCE, false, ""⟩]

/-- The ground element of the witness circuit. -/
def wGroundElem : Element := ⟨.ground, 0, false, fun _ => 0⟩

/-- One path made of the single ground edge from node 0 to the source
node 1. -/
def wPaths8 : List (List GraphEdge) := [[⟨0, 1, wGroundElem⟩]]

/-- Startends of the witness circuit. -/
def wStartends8 : List (ℤ × ℤ) := [(0, 1)]

/-- Witness for `source_elimination`: on the one-edge circuit the
surviving node is not a source and the rewritten ground edge keeps
endpoint 0 and loses endpoint 1 to `-1`. -/
theorem source_elimination_witness :
    (GraphNode.mk GraphNodeType.DIPOLE false "").type ≠ GraphNodeType.SOURCE ∧
      (((⟨0, -1, wGroundElem⟩ : GraphEdge).start = -1 ∧
          0 ≤ (⟨0, -1, wGroundElem⟩ : GraphEdge).endn ∧
          (⟨0, -1, wGroundElem⟩ : GraphEdge).endn <
            ((delete_node_sources wNodes8 wPaths8 wStartends8).1.length : ℤ)) ∨
        ((⟨0, -1, wGroundElem⟩ : GraphEdge).endn = -1 ∧
          0 ≤ (⟨0, -1, wGroundElem⟩ : GraphEdge).start ∧
          (⟨0, -1, wGroundElem⟩ : GraphEdge).start <
            ((delete_node_sources wNodes8 wPaths8 wStartends8).1.length : ℤ))) := by
  have h := source_elimination wNodes8 wPaths8 wStartends8 (by decide) (by decide)
  refine ⟨h.1 ⟨GraphNodeType.DIPOLE, false, ""⟩ (List.Mem.head _), ?_⟩
  have h2 := h.2 [(⟨0, -1, wGroundElem⟩ : GraphEdge)] (List.Mem.head _)
    (⟨0, -1, wGroundElem⟩ : GraphEdge) (List.Mem.head _)
  exact h2.1 (by decide)

end LUPA
